import Mathlib

/-!
Wordle solver (`wordle.cpp`): embedding and verified properties

The solver keeps a working set of candidate words, prunes it with the
per-letter feedback of every guess, and picks the next guess with a
letter-frequency heuristic.

Modelling conventions.

* `std::string` is a `List Char`; `s[i]` is `charAt s i`.
* `std::unordered_set<T>` is a `List T` holding the elements in the order in
  which the container enumerates them; `insert` keeps an element that is
  already there, `std::erase_if` is a filter, `erase(key)` removes the key.
  Where the result depends on the order in which a freshly built or copied
  container is scanned (the candidates of the Selector), that order is a
  parameter: `findBestCandidateIn scan`, for any rearrangement `scan`.
* `std::map<K, int>` is an association list; `m[k]` reads 0 for a missing key.
* `int` is `Int`: signed overflow is undefined in C++, so the embedding
  describes the runs in which no counter or score overflows.
* `size_t` is a `Nat` below `2 ^ 64`, `std::string::npos` is `2 ^ 64 - 1`, and
  the conversion of a `size_t` to `int` is `static_cast_int` (modulo `2 ^ 32`).
* The oracle (`cs19_wordle::Wordle`) is external: one round of the main loop
  takes the feedback array and whether `total_games()` stayed the same.
-/

namespace Wordle

/-! ## Data model -/

/-- A `std::string`. -/
abbrev Word := List Char

/-- The four values of `cs19_wordle::letter_status_t` the program uses. -/
inductive letter_status_t where
  | GREEN
  | YELLOW
  | GRAY
  | ERROR
  deriving DecidableEq, Repr

open letter_status_t

/-- The feedback array returned by `game.guess`, read at indices 0..4. -/
abbrev Feedback := Fin 5 → letter_status_t

/-- The indices visited by `for (int i = 0; i < 5; ++i)`. -/
def positions : List (Fin 5) := [0, 1, 2, 3, 4]

/-- The constant `std::string::npos` on a 64-bit platform. -/
def npos : Nat := 2 ^ 64 - 1

/-- Conversion of a `size_t` to `int` (two's complement, modulo `2 ^ 32`). -/
def static_cast_int (n : Nat) : Int :=
  if n % 2 ^ 32 < 2 ^ 31 then ((n % 2 ^ 32 : Nat) : Int) else ((n % 2 ^ 32 : Nat) : Int) - 2 ^ 32

/-- Scan for `find`: `k` is the index of the head of the remaining characters. -/
def findFrom (c : Char) (pos : Nat) : List Char → Nat → Nat
  | [], _ => npos
  | x :: xs, k => if pos ≤ k ∧ x = c then k else findFrom c pos xs (k + 1)

/-- The call `word.find(c, pos)`: index of the first `c` at or after `pos`, else `npos`. -/
def find (word : Word) (c : Char) (pos : Nat) : Nat :=
  findFrom c pos word 0

/-- The read `word[i]`; at `word.size()` it gives the terminating null character, and
further out the C++ behaviour is undefined (the words and guesses of the claims have
five letters and are read at indices 0..4). -/
def charAt (word : Word) (i : Nat) : Char :=
  word.getD i (Char.ofNat 0)

/-- The call `s.insert(a)` on an unordered set. -/
def setInsert {α : Type} [DecidableEq α] (a : α) (s : List α) : List α :=
  if a ∈ s then s else s ++ [a]

/-- The call `std::erase_if(s, pred)`. -/
def erase_if {α : Type} (s : List α) (pred : α → Bool) : List α :=
  s.filter (fun x => !pred x)

/-- The call `s.erase(key)` on an unordered set. -/
def setErase {α : Type} [DecidableEq α] (s : List α) (key : α) : List α :=
  s.filter (fun x => decide (x ≠ key))

/-- The type `std::map<K, int>`. -/
abbrev IntMap (κ : Type) := List (κ × Int)

/-- Reading `m[k]`: the stored value, or 0 for a key not yet in the map. -/
def mapGet {κ : Type} [DecidableEq κ] (m : IntMap κ) (k : κ) : Int :=
  match m with
  | [] => 0
  | (k0, v) :: rest => if k0 = k then v else mapGet rest k

/-- Writing `m[k] = v`. -/
def mapSet {κ : Type} [DecidableEq κ] (m : IntMap κ) (k : κ) (v : Int) : IntMap κ :=
  match m with
  | [] => [(k, v)]
  | (k0, v0) :: rest => if k0 = k then (k0, v) :: rest else (k0, v0) :: mapSet rest k v

/-- The keys of a map. -/
def mapKeys {κ : Type} (m : IntMap κ) : List κ :=
  m.map Prod.fst

/-! ## Letter Frequency Analyzer, Scorer and Selector -/

/-- The values taken by `char c` in `for (char c = 65; c < 91; c++)`. -/
def alphabet : List Char :=
  (List.range 26).map (fun k => Char.ofNat (65 + k))

/-- Source lines 24-37. -/
def letterFrequencies (possibleWords : List Word) : IntMap Char :=
  let letterFreqs : IntMap Char := alphabet.foldl (fun m c => mapSet m c 0) []
  possibleWords.foldl
    (fun m word =>
      alphabet.foldl
        (fun m c => if find word c 0 ≠ npos then mapSet m c (mapGet m c + 1) else m) m)
    letterFreqs

/-- Source lines 41-51. -/
def hasAllYellows (word : Word) (yellows : List Char) : Bool :=
  if yellows.isEmpty then false
  else yellows.all (fun yellow => decide (find word yellow 0 ≠ npos))

/-- Source lines 55-61. -/
def hasUniqueLetters (word : Word) : Bool :=
  let letters : List Char := word.foldl (fun letters letter => setInsert letter letters) []
  decide (letters.length = 5)

/-- Source lines 64-74. -/
def wordRankings (candidates : List Word) (letterFreqs : IntMap Char) : IntMap Word :=
  candidates.foldl
    (fun wordRanks candidate =>
      candidate.foldl
        (fun wordRanks letter =>
          mapSet wordRanks candidate (mapGet wordRanks candidate + mapGet letterFreqs letter))
        (mapSet wordRanks candidate 0))
    []

/-- The loop of `bestCandidate`, carrying `(max, bestCandidate)`. -/
def bestCandidateLoop (wordRanks : IntMap Word) (acc : Int × Word) (candidates : List Word) :
    Int × Word :=
  candidates.foldl
    (fun acc word => if mapGet wordRanks word > acc.1 then (mapGet wordRanks word, word) else acc)
    acc

/-- Source lines 77-88. -/
def bestCandidate (candidates : List Word) (wordRanks : IntMap Word) : Word :=
  (bestCandidateLoop wordRanks (0, []) candidates).2

/-- The loops `for (word : possibleWords) if (keep(word)) candidates.insert(word)`:
the words put into `candidates`, listed in the order of their insertion. The order in
which the container is scanned afterwards is the `scan` of `findBestCandidateIn`. -/
def collect (keep : Word → Bool) (possibleWords : List Word) (candidates : List Word) :
    List Word :=
  possibleWords.foldl (fun cands word => if keep word then setInsert word cands else cands)
    candidates

/-- Source lines 93-128. `bestCandidate` receives a copy of an unordered set and scans it
in the order of its hash table, which the C++ standard leaves open: `scan` gives, for
the words inserted into a container, the order in which `bestCandidate` meets them (a
rearrangement of these words). -/
def findBestCandidateIn (scan : List Word → List Word) (possibleWords : List Word)
    (yellows : List Char) (letterFreqs : IntMap Char) : Word :=
  let candidates1 :=
    collect (fun word => hasUniqueLetters word && hasAllYellows word yellows) possibleWords []
  if ¬ candidates1.isEmpty then
    bestCandidate (scan candidates1) (wordRankings candidates1 letterFreqs)
  else
    let candidates2 := collect (fun word => hasAllYellows word yellows) possibleWords candidates1
    if ¬ candidates2.isEmpty then
      bestCandidate (scan candidates2) (wordRankings candidates2 letterFreqs)
    else
      let candidates3 := collect (fun word => hasUniqueLetters word) possibleWords candidates2
      if ¬ candidates3.isEmpty then
        bestCandidate (scan candidates3) (wordRankings candidates3 letterFreqs)
      else
        bestCandidate (scan possibleWords) (wordRankings possibleWords letterFreqs)

/-- Source lines 93-128 for containers that are scanned in the order of insertion: the
instance of `findBestCandidateIn` used where the order does not matter. -/
def findBestCandidate (possibleWords : List Word) (yellows : List Char)
    (letterFreqs : IntMap Char) : Word :=
  findBestCandidateIn (fun l => l) possibleWords yellows letterFreqs

/-! ## Round Controller and Constraint Filter -/

/-- The type `std::unordered_map<char, std::unordered_set<int>>`; `none` is a missing key. -/
abbrev Greens := Char → Option (List Int)

/-- The call `greens.contains(c)`. -/
def greensContains (greens : Greens) (c : Char) : Bool :=
  (greens c).isSome

/-- The set read by `greens[c]`. -/
def greensAt (greens : Greens) (c : Char) : List Int :=
  (greens c).getD []

/-- The call `greens[c].insert(i)`. -/
def greensInsert (greens : Greens) (c : Char) (i : Int) : Greens :=
  fun d => if d = c then some (setInsert i (greensAt greens c)) else greens d

/-- The variables of `main` that live across iterations of the loop. -/
structure State where
  possibleWords : List Word
  possibleWordsBackup : List Word
  letterFreqs : IntMap Char
  greens : Greens
  yellows : List Char
  numGuesses : Int

/-- Source lines 12-21 and 141-147, for the lines of the word file. -/
def initialState (fileLines : List Word) : State :=
  let words := fileLines.foldl (fun s word => setInsert word s) []
  { possibleWords := words
    possibleWordsBackup := words
    letterFreqs := letterFrequencies words
    greens := fun _ => none
    yellows := []
    numGuesses := 0 }

/-- Source lines 154-164: the guess of the coming round. -/
def chooseGuess (st : State) : Word :=
  if st.numGuesses = 0 then "FADES".toList
  else if st.numGuesses = 1 then "BROWN".toList
  else if st.numGuesses = 2 then "MIGHT".toList
  else if st.numGuesses = 3 then "PLUCK".toList
  else findBestCandidate st.possibleWords st.yellows st.letterFreqs

/-- Source lines 182-188: the look-ahead over the feedback. -/
def lookAhead (userGuess : Word) (result : Feedback) (acc : Greens × List Char) :
    Greens × List Char :=
  positions.foldl
    (fun acc i =>
      if result i = GREEN then (greensInsert acc.1 (charAt userGuess i) i, acc.2)
      else if result i = YELLOW then (acc.1, setInsert (charAt userGuess i) acc.2)
      else acc)
    acc

/-- Source lines 196-222: the body of the filtering loop at index `i`. On the last
branch `greens` has the key already, so `greens[c]` adds none. -/
def filterStep (userGuess : Word) (result : Feedback) (yellows : List Char)
    (acc : List Word × Greens) (i : Fin 5) : List Word × Greens :=
  let c := charAt userGuess i
  if result i = GREEN then
    (erase_if acc.1 (fun word => decide (static_cast_int (find word c i) ≠ (i : Int))),
      greensInsert acc.2 c i)
  else if result i = YELLOW then
    (erase_if acc.1 (fun word => decide (charAt word i = c) || decide (find word c 0 = npos)),
      acc.2)
  else if result i = GRAY ∧ ¬ greensContains acc.2 c ∧ c ∉ yellows then
    (erase_if acc.1 (fun word => decide (find word c 0 ≠ npos)), acc.2)
  else if result i = GRAY then
    if c ∉ yellows then
      (erase_if acc.1
        (fun word => !((greensAt acc.2 c).contains (static_cast_int (find word c 0)))), acc.2)
    else acc
  else acc

/-- KnownPlacements and KnownPresent once the statuses of the guess have been recorded:
the result of the clearing of lines 173-175 and of the look-ahead of lines 182-188. -/
def recorded (st : State) (userGuess : Word) (result : Feedback) : Greens × List Char :=
  lookAhead userGuess result (st.greens, if st.numGuesses > 3 then [] else st.yellows)

/-- Source lines 168-232: what one iteration does after `game.guess(userGuess)`
returned `result`; `sameGame` is `game.total_games() == previous_games`. -/
def processRound (st : State) (userGuess : Word) (result : Feedback) (sameGame : Bool) :
    State :=
  let seen := recorded st userGuess result
  if sameGame then
    let pruned := positions.foldl (filterStep userGuess result seen.2) (st.possibleWords, seen.1)
    { st with
      possibleWords := setErase pruned.1 userGuess
      greens := pruned.2
      yellows := seen.2
      numGuesses := st.numGuesses + 1 }
  else
    { st with
      possibleWords := st.possibleWordsBackup
      yellows := []
      numGuesses := 0
      greens := fun _ => none }

/-- One iteration of the main loop: the controller picks the guess itself. -/
def step (st : State) (result : Feedback) (sameGame : Bool) : State :=
  processRound st (chooseGuess st) result sameGame

/-- A run of accepted rounds (the puzzle instance stays the same), each given by
its guess and the feedback it received. -/
def runRounds (st : State) (rounds : List (Word × Feedback)) : State :=
  rounds.foldl (fun st r => processRound st r.1 r.2 true) st

/-- A run of iterations of the main loop, each given by the feedback the oracle
returned and by whether `total_games()` stayed the same; the guesses are the
controller's own. -/
def runSteps (st : State) (rounds : List (Feedback × Bool)) : State :=
  rounds.foldl (fun st r => step st r.1 r.2) st

/-- A state at the start of a puzzle instance: nothing known, no guess taken. -/
def freshState (possibleWords possibleWordsBackup : List Word) (letterFreqs : IntMap Char) :
    State :=
  { possibleWords := possibleWords
    possibleWordsBackup := possibleWordsBackup
    letterFreqs := letterFreqs
    greens := fun _ => none
    yellows := []
    numGuesses := 0 }

/-- Whether `word` stays in the working set at index `i` of the filtering loop, for the
placements `greens` and the present letters `yellows`: the negation of the predicate
handed to `std::erase_if` on the branch taken at `i`. -/
def survives (greens : Greens) (yellows : List Char) (userGuess : Word) (result : Feedback)
    (i : Fin 5) (word : Word) : Bool :=
  let c := charAt userGuess i
  if result i = GREEN then decide (static_cast_int (find word c i) = (i : Int))
  else if result i = YELLOW then !(decide (charAt word i = c) || decide (find word c 0 = npos))
  else if result i = GRAY ∧ ¬ greensContains greens c ∧ c ∉ yellows then
    decide (find word c 0 = npos)
  else if result i = GRAY then
    if c ∉ yellows then (greensAt greens c).contains (static_cast_int (find word c 0)) else true
  else true

/-- A word contradicts the status of index `i`, for KnownPlacements `greens` and
KnownPresent `yellows` and with `L = userGuess[i]`. Correct: the word has another letter
at `i`. Present: the word has `L` at `i`, or has no `L`. Absent with `L` not in
KnownPresent and without a key in KnownPlacements: the word contains `L`. Absent with
`L` not in KnownPresent and with a key in KnownPlacements: the index of the first `L`
of the word, as line 220 reads it (-1 for a word without `L`), is not recorded. -/
def contradicts (greens : Greens) (yellows : List Char) (userGuess : Word) (result : Feedback)
    (i : Fin 5) (word : Word) : Prop :=
  (result i = GREEN ∧ charAt word i ≠ charAt userGuess i) ∨
    (result i = YELLOW ∧
      (charAt word i = charAt userGuess i ∨ charAt userGuess i ∉ word)) ∨
    (result i = GRAY ∧ charAt userGuess i ∉ yellows ∧ greens (charAt userGuess i) = none ∧
      charAt userGuess i ∈ word) ∨
    (result i = GRAY ∧ charAt userGuess i ∉ yellows ∧ greens (charAt userGuess i) ≠ none ∧
      static_cast_int (find word (charAt userGuess i) 0) ∉ greensAt greens (charAt userGuess i))

/-- A word agrees with the status of index `i`, for KnownPlacements `greens` and
KnownPresent `yellows` and with `L = userGuess[i]`. Correct: the word has `L` at `i`.
Present: the word has another letter at `i` and has `L` somewhere. Absent with `L` not
in KnownPresent and without a key in KnownPlacements: the word has no `L`. Absent with
`L` not in KnownPresent and with a key in KnownPlacements: the word has `L`, and has it
at recorded indices only. -/
def agrees (greens : Greens) (yellows : List Char) (userGuess : Word) (result : Feedback)
    (i : Fin 5) (word : Word) : Prop :=
  (result i = GREEN → charAt word i = charAt userGuess i) ∧
    (result i = YELLOW →
      charAt word i ≠ charAt userGuess i ∧ charAt userGuess i ∈ word) ∧
    (result i = GRAY → charAt userGuess i ∉ yellows → greens (charAt userGuess i) = none →
      charAt userGuess i ∉ word) ∧
    (result i = GRAY → charAt userGuess i ∉ yellows → greens (charAt userGuess i) ≠ none →
      charAt userGuess i ∈ word ∧
        ∀ p : Fin 5, charAt word p = charAt userGuess i →
          ((p : Nat) : Int) ∈ greensAt greens (charAt userGuess i))

/-! ## The oracle's feedback rule -/

/-- Modelled from the spec: the letters of the secret at the positions where the
guess does not match it (the oracle `cs19_wordle::Wordle` is an external library). -/
def unmatched (secret guess : Word) : List Char :=
  ((guess.zip secret).filter (fun p => decide (p.1 ≠ p.2))).map Prod.snd

/-- Modelled from the spec: the left-to-right pass of the standard feedback rule over
the guess `g :: gs` and the secret `s :: ss`, with `pool` the unmatched letters of the
secret not yet used up: Correct on a match, else Present while the letter remains in
the pool, else Absent. -/
def feedbackScan : List Char → List Char → List Char → List letter_status_t
  | g :: gs, s :: ss, pool =>
    if g = s then GREEN :: feedbackScan gs ss pool
    else if g ∈ pool then YELLOW :: feedbackScan gs ss (pool.erase g)
    else GRAY :: feedbackScan gs ss pool
  | _, _, _ => []

/-- Modelled from the spec: the standard feedback of `guess` against `secret`. -/
def standardFeedback (secret guess : Word) : Feedback :=
  fun i => (feedbackScan guess secret (unmatched secret guess)).getD i ERROR

/-- The feedback array with the given five statuses. -/
def feedbackOf (a b c d e : letter_status_t) : Feedback :=
  fun i => [a, b, c, d, e].getD i ERROR

/-- The first `n` iterations of the main loop against an oracle whose secret is
`secret` and stays so: each guess of the controller gets its standard feedback. -/
def playRounds (secret : Word) : Nat → State → State
  | 0, st => st
  | n + 1, st => playRounds secret n (step st (standardFeedback secret (chooseGuess st)) true)

/-! ## What the recorded placements say about a secret -/

/-- The recorded placements are sound for `secret`: a letter with a key has a recorded
position, and every recorded position of a letter is an index at which the secret has
that letter. -/
def placementsSound (secret : Word) (greens : Greens) : Prop :=
  ∀ c : Char,
    (greens c ≠ none → ∃ p, p ∈ greensAt greens c) ∧
      ∀ p ∈ greensAt greens c, ∃ i : Fin 5, p = ((i : Nat) : Int) ∧ charAt secret i = c

/-! ## The Selector's tiers, in the words of the specification -/

/-- A word with five mutually distinct letters. -/
def fiveDistinct (w : Word) : Bool :=
  decide (w.length = 5 ∧ w.Nodup)

/-- A word that contains every letter of KnownPresent. -/
def containsAll (yellows : List Char) (w : Word) : Bool :=
  decide (∀ y ∈ yellows, y ∈ w)

/-- Tier 1: five mutually distinct letters and every KnownPresent letter. -/
def tier1 (possibleWords : List Word) (yellows : List Char) : List Word :=
  possibleWords.filter (fun w => fiveDistinct w && containsAll yellows w)

/-- Tier 2: every KnownPresent letter. -/
def tier2 (possibleWords : List Word) (yellows : List Char) : List Word :=
  possibleWords.filter (fun w => containsAll yellows w)

/-- Tier 3: five mutually distinct letters. -/
def tier3 (possibleWords : List Word) : List Word :=
  possibleWords.filter (fun w => fiveDistinct w)

/-- The first non-empty tier among tier 1, tier 2, tier 3 and the whole working set. -/
def chosenTier (possibleWords : List Word) (yellows : List Char) : List Word :=
  if tier1 possibleWords yellows ≠ [] then tier1 possibleWords yellows
  else if tier2 possibleWords yellows ≠ [] then tier2 possibleWords yellows
  else if tier3 possibleWords ≠ [] then tier3 possibleWords
  else possibleWords

/-! ## Example data -/

/-- The word SEEDY. -/
def SEEDY : Word := "SEEDY".toList

/-- The word SCENT. -/
def SCENT : Word := "SCENT".toList

/-- The word CRANE. -/
def CRANE : Word := "CRANE".toList

/-- The word MONEY. -/
def MONEY : Word := "MONEY".toList

/-- The word ABOUT. -/
def ABOUT : Word := "ABOUT".toList

/-- The word SHEEP. -/
def SHEEP : Word := "SHEEP".toList

/-- The word ALTER. -/
def ALTER : Word := "ALTER".toList

/-- The word TAKEN. -/
def TAKEN : Word := "TAKEN".toList

/-- A string of the letters A, Y, E, X, none of them among the twenty scripted ones
but A and E. -/
def AYAEX : Word := "AYAEX".toList

/-- The first scripted guess. -/
def FADES : Word := "FADES".toList

/-- The second scripted guess. -/
def BROWN : Word := "BROWN".toList

/-- The third scripted guess. -/
def MIGHT : Word := "MIGHT".toList

/-- The fourth scripted guess. -/
def PLUCK : Word := "PLUCK".toList

/-- Feedback that is Absent at all five positions. -/
def allGray : Feedback := feedbackOf GRAY GRAY GRAY GRAY GRAY

/-- Feedback that is Invalid at all five positions. -/
def allError : Feedback := feedbackOf ERROR ERROR ERROR ERROR ERROR

/-- The four scripted rounds with A Present, E Correct at index 3, all else Absent. -/
def scriptedRounds : List (Word × Feedback) :=
  [(FADES, feedbackOf GRAY YELLOW GRAY GREEN GRAY), (BROWN, allGray), (MIGHT, allGray),
    (PLUCK, allGray)]

/-- A small working set for the scripted rounds. -/
def scriptedLexicon : List Word := [CRANE, ALTER, TAKEN, AYAEX, FADES]

/-- A small working set around the secret SCENT. -/
def scentLexicon : List Word := [SCENT, SHEEP, SEEDY, MONEY, CRANE]

/-- The word RELAY. -/
def RELAY : Word := "RELAY".toList

/-- The word RELAX. -/
def RELAX : Word := "RELAX".toList

/-- The word LEARY. -/
def LEARY : Word := "LEARY".toList

/-- The word FIXED. -/
def FIXED : Word := "FIXED".toList

/-- The word MIXED. -/
def MIXED : Word := "MIXED".toList

/-- The word CRATE. -/
def CRATE : Word := "CRATE".toList

/-- The word TRACE. -/
def TRACE : Word := "TRACE".toList

/-- A word file in which X is in more words than Y, while among the words that fit
the secret RELAY after the scripted opening Y is in more words than X. -/
def relayLexicon : List Word := [RELAY, RELAX, LEARY, FIXED, MIXED]

/-- The oracle's answers in the scripted opening when the secret is RELAY and the
puzzle instance stays the same. -/
def relayOpening : List (Feedback × Bool) :=
  [(standardFeedback RELAY FADES, true), (standardFeedback RELAY BROWN, true),
    (standardFeedback RELAY MIGHT, true), (standardFeedback RELAY PLUCK, true)]

/-- The six enumeration orders of the set RELAY, RELAX, LEARY. -/
def relayOrders : List (List Word) :=
  [[RELAY, RELAX, LEARY], [RELAY, LEARY, RELAX], [RELAX, RELAY, LEARY],
    [RELAX, LEARY, RELAY], [LEARY, RELAY, RELAX], [LEARY, RELAX, RELAY]]

/-- The string QEQQQ, a guess with E at index 1 only. -/
def QEQQQ : Word := "QEQQQ".toList

/-- A state in the opening phase with the working set SCENT, SEEDY and index 2
recorded for E. -/
def placedState : State :=
  { possibleWords := [SCENT, SEEDY]
    possibleWordsBackup := [SCENT, SEEDY]
    letterFreqs := letterFrequencies [SCENT, SEEDY]
    greens := greensInsert (fun _ => none) 'E' 2
    yellows := []
    numGuesses := 1 }

/-- A table that tells the letters of SEEDY apart: S 1, E 10, D 100, Y 1000. -/
def tableSEDY : IntMap Char := [('S', 1), ('E', 10), ('D', 100), ('Y', 1000)]

set_option maxRecDepth 100000

/-! ## Lemmas on the containers -/

theorem mapGet_mapSet {κ : Type} [DecidableEq κ] (m : IntMap κ) (k k1 : κ) (v : Int) :
    mapGet (mapSet m k v) k1 = if k1 = k then v else mapGet m k1 := by
  induction m with
  | nil =>
    by_cases h : k1 = k
    · subst h; simp [mapSet, mapGet]
    · have h2 : ¬ k = k1 := fun e => h e.symm
      simp [mapSet, mapGet, h, h2]
  | cons kv rest ih =>
    obtain ⟨k0, v0⟩ := kv
    by_cases h0 : k0 = k
    · subst h0
      by_cases h : k1 = k0
      · subst h; simp [mapSet, mapGet]
      · have h2 : ¬ k0 = k1 := fun e => h e.symm
        simp [mapSet, mapGet, h, h2]
    · by_cases h : k1 = k
      · subst h
        by_cases h3 : k0 = k1
        · exact absurd h3 h0
        · simp [mapSet, mapGet, h0, h3, ih]
      · by_cases h3 : k0 = k1
        · simp [mapSet, mapGet, h0, h3, h]
        · simp [mapSet, mapGet, h0, h3, ih, h]

theorem mapKeys_mapSet_of_mem {κ : Type} [DecidableEq κ] (m : IntMap κ) (k : κ) (v : Int)
    (hk : k ∈ mapKeys m) : mapKeys (mapSet m k v) = mapKeys m := by
  induction m with
  | nil => simp [mapKeys] at hk
  | cons kv rest ih =>
    obtain ⟨k0, v0⟩ := kv
    by_cases h0 : k0 = k
    · simp [mapSet, mapKeys, h0]
    · have hk2 : k ∈ mapKeys rest := by
        simp only [mapKeys, List.map_cons, List.mem_cons] at hk
        rcases hk with hk | hk
        · exact absurd hk.symm h0
        · exact hk
      have := ih hk2
      simp only [mapKeys] at this
      simp [mapSet, mapKeys, h0, this]

theorem mem_setInsert {α : Type} [DecidableEq α] (a b : α) (s : List α) :
    b ∈ setInsert a s ↔ b = a ∨ b ∈ s := by
  unfold setInsert
  by_cases h : a ∈ s
  · simp only [h, if_true]
    constructor
    · exact fun hb => Or.inr hb
    · rintro (rfl | hb)
      · exact h
      · exact hb
  · simp only [h, if_false, List.mem_append, List.mem_singleton]
    tauto

theorem setInsert_of_mem {α : Type} [DecidableEq α] (a : α) (s : List α) (h : a ∈ s) :
    setInsert a s = s := by
  simp [setInsert, h]

theorem mem_erase_if {α : Type} (s : List α) (pred : α → Bool) (x : α) :
    x ∈ erase_if s pred ↔ x ∈ s ∧ pred x = false := by
  simp [erase_if]

theorem mem_setErase {α : Type} [DecidableEq α] (s : List α) (key x : α) :
    x ∈ setErase s key ↔ x ∈ s ∧ x ≠ key := by
  simp [setErase]

/-! ## Lemmas on `find` -/

theorem findFrom_zero (c : Char) (xs : List Char) (k : Nat) :
    findFrom c 0 xs k = if c ∈ xs then k + xs.indexOf c else npos := by
  induction xs generalizing k with
  | nil => simp [findFrom]
  | cons x xs ih =>
    by_cases hx : x = c
    · subst hx
      simp [findFrom]
    · have hx2 : ¬ c = x := fun e => hx e.symm
      simp only [findFrom, Nat.zero_le, true_and, hx, if_false, ih, List.mem_cons, hx2, false_or]
      by_cases hc : c ∈ xs
      · simp only [hc, if_true]
        rw [List.indexOf_cons_ne _ hx]
        omega
      · simp [hc]

theorem find_zero_of_mem (w : Word) (c : Char) (h : c ∈ w) : find w c 0 = w.indexOf c := by
  simp [find, findFrom_zero, h]

theorem find_zero_of_not_mem (w : Word) (c : Char) (h : c ∉ w) : find w c 0 = npos := by
  simp [find, findFrom_zero, h]

theorem find_zero_eq_npos_iff (w : Word) (c : Char) (hlen : w.length < 2 ^ 64) :
    find w c 0 = npos ↔ c ∉ w := by
  constructor
  · intro h hc
    rw [find_zero_of_mem w c hc] at h
    have := List.indexOf_lt_length.mpr hc
    simp only [npos] at h
    omega
  · exact find_zero_of_not_mem w c

/-! ## Letter Frequency Analyzer -/

theorem alphabet_eq : alphabet = "ABCDEFGHIJKLMNOPQRSTUVWXYZ".toList := by decide

theorem alphabet_nodup : alphabet.Nodup := by decide

theorem letterFreqs_init :
    alphabet.foldl (fun (m : IntMap Char) c => mapSet m c 0) [] = alphabet.map (fun c => (c, 0)) := by
  decide

theorem countLetters_keys (word : Word) (cs : List Char) (m : IntMap Char)
    (hk : ∀ c ∈ cs, c ∈ mapKeys m) :
    mapKeys (cs.foldl
      (fun m c => if find word c 0 ≠ npos then mapSet m c (mapGet m c + 1) else m) m) = mapKeys m := by
  induction cs generalizing m with
  | nil => rfl
  | cons c cs ih =>
    simp only [List.foldl_cons]
    have hc : c ∈ mapKeys m := hk c (List.mem_cons_self c cs)
    by_cases hf : find word c 0 ≠ npos
    · rw [if_pos hf]
      have hkeys := mapKeys_mapSet_of_mem m c (mapGet m c + 1) hc
      rw [ih, hkeys]
      intro d hd
      rw [hkeys]
      exact hk d (List.mem_cons_of_mem c hd)
    · rw [if_neg hf]
      exact ih m (fun d hd => hk d (List.mem_cons_of_mem c hd))

theorem countLetters_get (word : Word) (cs : List Char) (hnd : cs.Nodup) (m : IntMap Char)
    (d : Char) :
    mapGet (cs.foldl
      (fun m c => if find word c 0 ≠ npos then mapSet m c (mapGet m c + 1) else m) m) d
      = mapGet m d + (if d ∈ cs ∧ find word d 0 ≠ npos then 1 else 0) := by
  induction cs generalizing m with
  | nil => simp
  | cons c cs ih =>
    simp only [List.foldl_cons]
    have hcs : cs.Nodup := (List.nodup_cons.mp hnd).2
    have hc : c ∉ cs := (List.nodup_cons.mp hnd).1
    rw [ih hcs]
    by_cases hdc : d = c
    · subst hdc
      by_cases hf : find word d 0 ≠ npos
      · simp [hf, hc, mapGet_mapSet]
      · simp [hf]
    · have hmem : d ∈ c :: cs ↔ d ∈ cs := by simp [hdc]
      by_cases hf : find word c 0 ≠ npos
      · rw [if_pos hf]
        simp only [mapGet_mapSet, hdc, if_false, hmem]
      · rw [if_neg hf]
        simp only [hmem]

theorem letterFrequencies_loop_keys (ws : List Word) (m : IntMap Char)
    (hk : mapKeys m = alphabet) :
    mapKeys (ws.foldl
      (fun m word =>
        alphabet.foldl
          (fun m c => if find word c 0 ≠ npos then mapSet m c (mapGet m c + 1) else m) m) m)
      = alphabet := by
  induction ws generalizing m with
  | nil => exact hk
  | cons w ws ih =>
    simp only [List.foldl_cons]
    apply ih
    rw [countLetters_keys w alphabet m (fun c hc => by rw [hk]; exact hc)]
    exact hk

theorem letterFrequencies_loop_get (ws : List Word) (m : IntMap Char) (d : Char)
    (hd : d ∈ alphabet) :
    mapGet (ws.foldl
      (fun m word =>
        alphabet.foldl
          (fun m c => if find word c 0 ≠ npos then mapSet m c (mapGet m c + 1) else m) m) m) d
      = mapGet m d + ((ws.countP (fun w => decide (find w d 0 ≠ npos)) : Nat) : Int) := by
  induction ws generalizing m with
  | nil => simp
  | cons w ws ih =>
    simp only [List.foldl_cons]
    rw [ih, countLetters_get w alphabet alphabet_nodup m d, List.countP_cons]
    by_cases hf : find w d 0 ≠ npos
    · have h1 : (d ∈ alphabet ∧ find w d 0 ≠ npos) := ⟨hd, hf⟩
      have h2 : decide (find w d 0 ≠ npos) = true := decide_eq_true hf
      rw [if_pos h1, if_pos h2]
      push_cast
      ring
    · have h1 : ¬ (d ∈ alphabet ∧ find w d 0 ≠ npos) := fun h => hf h.2
      have h2 : ¬ decide (find w d 0 ≠ npos) = true := by simpa using hf
      rw [if_neg h1, if_neg h2]
      simp

theorem mapGet_init_zero (d : Char) : mapGet (alphabet.map (fun c => (c, (0 : Int)))) d = 0 := by
  generalize alphabet = cs
  induction cs with
  | nil => rfl
  | cons c cs ih =>
    by_cases h : c = d
    · simp [mapGet, h]
    · simp only [List.map_cons, mapGet, h, if_false]
      exact ih

theorem countP_eq_card_filter (ws : List Word) (hnd : ws.Nodup) (p q : Word → Prop)
    [DecidablePred p] [DecidablePred q] (hpq : ∀ w ∈ ws, (p w ↔ q w)) :
    ws.countP (fun w => decide (p w)) = (ws.toFinset.filter q).card := by
  rw [List.countP_eq_length_filter, ← List.toFinset_card_of_nodup (hnd.filter _)]
  congr 1
  ext w
  simp only [List.mem_toFinset, List.mem_filter, decide_eq_true_eq, Finset.mem_filter]
  constructor
  · exact fun h => ⟨h.1, (hpq w h.1).mp h.2⟩
  · exact fun h => ⟨h.1, (hpq w h.1).mpr h.2⟩

/-- C10. For every set of words (a duplicate-free enumeration of strings),
`letterFrequencies` returns a table whose keys are exactly the letters A..Z, and whose
value at each of these letters is the number of words of the set that contain the
letter at least once. -/
theorem letterFrequencies_counts_words (ws : List Word) (hnd : ws.Nodup)
    (hlen : ∀ w ∈ ws, w.length < 2 ^ 64) :
    mapKeys (letterFrequencies ws) = "ABCDEFGHIJKLMNOPQRSTUVWXYZ".toList ∧
      ∀ c ∈ "ABCDEFGHIJKLMNOPQRSTUVWXYZ".toList,
        mapGet (letterFrequencies ws) c = ((ws.toFinset.filter (fun w => c ∈ w)).card : Int) := by
  rw [← alphabet_eq]
  unfold letterFrequencies
  simp only [letterFreqs_init]
  constructor
  · apply letterFrequencies_loop_keys
    simp [mapKeys, Function.comp_def]
  · intro c hc
    rw [letterFrequencies_loop_get ws _ c hc, mapGet_init_zero, zero_add]
    congr 1
    exact countP_eq_card_filter ws hnd (fun w => find w c 0 ≠ npos) (fun w => c ∈ w)
      (fun w hw => by
        have := find_zero_eq_npos_iff w c (hlen w hw)
        constructor
        · intro h; by_contra hcw; exact h (this.mpr hcw)
        · intro h hn; exact (this.mp hn) h)

/-- Witness for C10 on the set SEEDY, SCENT, CRANE (E is in all three words and SEEDY
has it twice). -/
theorem letterFrequencies_counts_words_witness :
    ([SEEDY, SCENT, CRANE].Nodup ∧ ∀ w ∈ [SEEDY, SCENT, CRANE], w.length < 2 ^ 64) ∧
      mapKeys (letterFrequencies [SEEDY, SCENT, CRANE]) = "ABCDEFGHIJKLMNOPQRSTUVWXYZ".toList ∧
      ∀ c ∈ "ABCDEFGHIJKLMNOPQRSTUVWXYZ".toList,
        mapGet (letterFrequencies [SEEDY, SCENT, CRANE]) c
          = ((([SEEDY, SCENT, CRANE] : List Word).toFinset.filter (fun w => c ∈ w)).card : Int) :=
  ⟨⟨by decide, by decide⟩,
    letterFrequencies_counts_words [SEEDY, SCENT, CRANE] (by decide) (by decide)⟩

/-! ## Candidate Scorer -/

theorem rankLetters_get (lf : IntMap Char) (cand : Word) (letters : List Char)
    (ranks : IntMap Word) (w : Word) :
    mapGet (letters.foldl
      (fun wordRanks letter =>
        mapSet wordRanks cand (mapGet wordRanks cand + mapGet lf letter)) ranks) w
      = if w = cand then mapGet ranks cand + (letters.map (mapGet lf)).sum else mapGet ranks w := by
  induction letters generalizing ranks with
  | nil => by_cases h : w = cand <;> simp [h]
  | cons l ls ih =>
    simp only [List.foldl_cons, ih, mapGet_mapSet, List.map_cons, List.sum_cons]
    by_cases h : w = cand
    · simp only [h, if_true]; ring
    · simp only [h, if_false]

theorem wordRankings_loop_get (lf : IntMap Char) (cands : List Word) (ranks : IntMap Word)
    (w : Word) :
    mapGet (cands.foldl
      (fun wordRanks candidate =>
        candidate.foldl
          (fun wordRanks letter =>
            mapSet wordRanks candidate (mapGet wordRanks candidate + mapGet lf letter))
          (mapSet wordRanks candidate 0)) ranks) w
      = if w ∈ cands then (w.map (mapGet lf)).sum else mapGet ranks w := by
  induction cands generalizing ranks with
  | nil => simp
  | cons c cs ih =>
    simp only [List.foldl_cons, ih, rankLetters_get, mapGet_mapSet, List.mem_cons]
    by_cases hcs : w ∈ cs
    · simp [hcs]
    · by_cases hc : w = c
      · simp [hc]
      · simp [hcs, hc]

theorem wordRankings_get (cands : List Word) (lf : IntMap Char) (w : Word) :
    mapGet (wordRankings cands lf) w = if w ∈ cands then (w.map (mapGet lf)).sum else 0 := by
  unfold wordRankings
  rw [wordRankings_loop_get]
  rfl

/-- C9, as the code has it. For every set of candidates and every frequency table,
`wordRankings` gives each candidate the sum of the table values over all the letter
positions of the word, so a repeated letter counts once for every occurrence. -/
theorem wordRankings_sums_every_letter (cands : List Word) (lf : IntMap Char) (w : Word)
    (hw : w ∈ cands) : mapGet (wordRankings cands lf) w = (w.map (mapGet lf)).sum := by
  rw [wordRankings_get, if_pos hw]

/-- Witness for the amended C9: SEEDY scores S + E + E + D + Y. -/
theorem wordRankings_sums_every_letter_witness :
    SEEDY ∈ [SEEDY, SCENT] ∧
      mapGet (wordRankings [SEEDY, SCENT] tableSEDY) SEEDY = (SEEDY.map (mapGet tableSEDY)).sum :=
  ⟨by decide, wordRankings_sums_every_letter [SEEDY, SCENT] tableSEDY SEEDY (by decide)⟩

/-- C9 as stated fails: with S 1, E 10, D 100, Y 1000 the code scores SEEDY 1121, the
sum over its distinct letters is 1111. -/
theorem wordRankings_counts_repeats :
    mapGet (wordRankings [SEEDY] tableSEDY) SEEDY = 1121 ∧
      ((SEEDY.dedup).map (mapGet tableSEDY)).sum = 1111 ∧
      mapGet (wordRankings [SEEDY] tableSEDY) SEEDY ≠ ((SEEDY.dedup).map (mapGet tableSEDY)).sum := by
  decide

/-! ## Candidate Selector -/

theorem insertAll_length (xs acc : List Char) :
    (xs.foldl (fun letters letter => setInsert letter letters) acc).length ≤ acc.length + xs.length ∧
      ((xs.foldl (fun letters letter => setInsert letter letters) acc).length
          = acc.length + xs.length ↔ xs.Nodup ∧ ∀ x ∈ xs, x ∉ acc) := by
  induction xs generalizing acc with
  | nil => simp
  | cons x xs ih =>
    simp only [List.foldl_cons]
    obtain ⟨hle, hiff⟩ := ih (setInsert x acc)
    by_cases hx : x ∈ acc
    · rw [setInsert_of_mem x acc hx] at hle hiff ⊢
      refine ⟨by simp only [List.length_cons]; omega, ?_⟩
      constructor
      · intro h
        simp only [List.length_cons] at h
        omega
      · intro h
        exact absurd hx (h.2 x (List.mem_cons_self x xs))
    · have hins : setInsert x acc = acc ++ [x] := by simp [setInsert, hx]
      rw [hins] at hle hiff ⊢
      simp only [List.length_append, List.length_singleton] at hle hiff
      refine ⟨by simp only [List.length_cons]; omega, ?_⟩
      simp only [List.length_cons, List.nodup_cons, List.mem_cons]
      rw [show acc.length + (xs.length + 1) = acc.length + 1 + xs.length by omega, hiff]
      simp only [List.mem_append, List.mem_singleton, not_or]
      constructor
      · rintro ⟨hnd, hall⟩
        refine ⟨⟨fun hxm => (hall x hxm).2 rfl, hnd⟩, ?_⟩
        rintro y (rfl | hy)
        · exact hx
        · exact (hall y hy).1
      · rintro ⟨⟨hxn, hnd⟩, hall⟩
        refine ⟨hnd, fun y hy => ⟨hall y (Or.inr hy), ?_⟩⟩
        rintro rfl
        exact hxn hy

theorem hasUniqueLetters_iff (w : Word) (hlen : w.length = 5) :
    hasUniqueLetters w = true ↔ w.Nodup := by
  have h := (insertAll_length w []).2
  simp only [List.length_nil, zero_add, List.not_mem_nil, not_false_eq_true, implies_true,
    and_true] at h
  unfold hasUniqueLetters
  simp only [decide_eq_true_eq]
  rw [← hlen]
  exact h

theorem hasUniqueLetters_eq_fiveDistinct (w : Word) (hlen : w.length = 5) :
    hasUniqueLetters w = fiveDistinct w := by
  rw [Bool.eq_iff_iff, hasUniqueLetters_iff w hlen]
  simp [fiveDistinct, hlen]

theorem hasAllYellows_iff (w : Word) (yellows : List Char) (hlen : w.length < 2 ^ 64) :
    hasAllYellows w yellows = true ↔ yellows ≠ [] ∧ ∀ y ∈ yellows, y ∈ w := by
  unfold hasAllYellows
  cases yellows with
  | nil => simp
  | cons y ys =>
    simp only [List.isEmpty_cons, Bool.false_eq_true, if_false, List.all_eq_true,
      decide_eq_true_eq, ne_eq, reduceCtorEq, not_false_eq_true, true_and]
    constructor
    · intro h z hz
      by_contra hzw
      exact h z hz ((find_zero_eq_npos_iff w z hlen).mpr hzw)
    · intro h z hz hn
      exact (find_zero_eq_npos_iff w z hlen).mp hn (h z hz)

theorem mem_collect (keep : Word → Bool) (ws cands : List Word) (w : Word) :
    w ∈ collect keep ws cands ↔ w ∈ cands ∨ (w ∈ ws ∧ keep w = true) := by
  unfold collect
  induction ws generalizing cands with
  | nil => simp
  | cons x xs ih =>
    simp only [List.foldl_cons, ih, List.mem_cons]
    by_cases hk : keep x = true
    · simp only [hk, if_true, mem_setInsert]
      constructor
      · rintro ((rfl | h) | h)
        · exact Or.inr ⟨Or.inl rfl, hk⟩
        · exact Or.inl h
        · exact Or.inr ⟨Or.inr h.1, h.2⟩
      · rintro (h | ⟨rfl | h, h2⟩)
        · exact Or.inl (Or.inr h)
        · exact Or.inl (Or.inl rfl)
        · exact Or.inr ⟨h, h2⟩
    · simp only [hk, if_false]
      constructor
      · rintro (h | h)
        · exact Or.inl h
        · exact Or.inr ⟨Or.inr h.1, h.2⟩
      · rintro (h | ⟨rfl | h, h2⟩)
        · exact Or.inl h
        · exact absurd h2 hk
        · exact Or.inr ⟨h, h2⟩

theorem bestCandidateLoop_bounds (ranks : IntMap Word) (cands : List Word) (acc : Int × Word) :
    acc.1 ≤ (bestCandidateLoop ranks acc cands).1 ∧
      ∀ w ∈ cands, mapGet ranks w ≤ (bestCandidateLoop ranks acc cands).1 := by
  unfold bestCandidateLoop
  induction cands generalizing acc with
  | nil => simp
  | cons x xs ih =>
    simp only [List.foldl_cons, List.mem_cons]
    by_cases hx : mapGet ranks x > acc.1
    · rw [if_pos hx]
      obtain ⟨h1, h2⟩ := ih (mapGet ranks x, x)
      simp only at h1
      refine ⟨by omega, ?_⟩
      rintro w (rfl | hw)
      · exact h1
      · exact h2 w hw
    · rw [if_neg hx]
      obtain ⟨h1, h2⟩ := ih acc
      refine ⟨h1, ?_⟩
      rintro w (rfl | hw)
      · omega
      · exact h2 w hw

theorem bestCandidateLoop_result (ranks : IntMap Word) (cands : List Word) (acc : Int × Word) :
    bestCandidateLoop ranks acc cands = acc ∨
      ((bestCandidateLoop ranks acc cands).2 ∈ cands ∧
        mapGet ranks (bestCandidateLoop ranks acc cands).2 = (bestCandidateLoop ranks acc cands).1 ∧
        acc.1 < (bestCandidateLoop ranks acc cands).1) := by
  unfold bestCandidateLoop
  induction cands generalizing acc with
  | nil => simp
  | cons x xs ih =>
    simp only [List.foldl_cons, List.mem_cons]
    by_cases hx : mapGet ranks x > acc.1
    · rw [if_pos hx]
      right
      rcases ih (mapGet ranks x, x) with h | ⟨h1, h2, h3⟩
      · rw [h]
        exact ⟨Or.inl rfl, rfl, hx⟩
      · simp only at h3
        exact ⟨Or.inr h1, h2, by omega⟩
    · rw [if_neg hx]
      rcases ih acc with h | ⟨h1, h2, h3⟩
      · exact Or.inl h
      · exact Or.inr ⟨Or.inr h1, h2, h3⟩

theorem bestCandidate_of_positive (cands : List Word) (ranks : IntMap Word)
    (hpos : ∃ w ∈ cands, 0 < mapGet ranks w) :
    bestCandidate cands ranks ∈ cands ∧
      ∀ w ∈ cands, mapGet ranks w ≤ mapGet ranks (bestCandidate cands ranks) := by
  obtain ⟨w0, hw0, hpos0⟩ := hpos
  have hb := bestCandidateLoop_bounds ranks cands (0, [])
  unfold bestCandidate
  rcases bestCandidateLoop_result ranks cands (0, []) with h | ⟨h1, h2, _⟩
  · have := hb.2 w0 hw0
    rw [h] at this
    simp only at this
    omega
  · exact ⟨h1, fun w hw => by rw [h2]; exact hb.2 w hw⟩

theorem bestCandidate_of_nonpositive (cands : List Word) (ranks : IntMap Word)
    (hnp : ∀ w ∈ cands, mapGet ranks w ≤ 0) : bestCandidate cands ranks = [] := by
  unfold bestCandidate
  rcases bestCandidateLoop_result ranks cands (0, []) with h | ⟨h1, h2, h3⟩
  · rw [h]
  · have := hnp _ h1
    simp only at h3
    omega

theorem findBestCandidate_unfold (ws : List Word) (ys : List Char) (lf : IntMap Char) :
    findBestCandidate ws ys lf =
      if ¬ (collect (fun word => hasUniqueLetters word && hasAllYellows word ys) ws []).isEmpty then
        bestCandidate (collect (fun word => hasUniqueLetters word && hasAllYellows word ys) ws [])
          (wordRankings (collect (fun word => hasUniqueLetters word && hasAllYellows word ys) ws [])
            lf)
      else if ¬ (collect (fun word => hasAllYellows word ys) ws
          (collect (fun word => hasUniqueLetters word && hasAllYellows word ys) ws [])).isEmpty then
        bestCandidate (collect (fun word => hasAllYellows word ys) ws
            (collect (fun word => hasUniqueLetters word && hasAllYellows word ys) ws []))
          (wordRankings (collect (fun word => hasAllYellows word ys) ws
            (collect (fun word => hasUniqueLetters word && hasAllYellows word ys) ws [])) lf)
      else if ¬ (collect (fun word => hasUniqueLetters word) ws
          (collect (fun word => hasAllYellows word ys) ws
            (collect (fun word => hasUniqueLetters word && hasAllYellows word ys) ws []))).isEmpty then
        bestCandidate (collect (fun word => hasUniqueLetters word) ws
            (collect (fun word => hasAllYellows word ys) ws
              (collect (fun word => hasUniqueLetters word && hasAllYellows word ys) ws [])))
          (wordRankings (collect (fun word => hasUniqueLetters word) ws
            (collect (fun word => hasAllYellows word ys) ws
              (collect (fun word => hasUniqueLetters word && hasAllYellows word ys) ws []))) lf)
      else bestCandidate ws (wordRankings ws lf) := rfl

theorem tier1_nil (ws : List Word) : tier1 ws [] = tier3 ws := by
  simp [tier1, tier3, containsAll]

theorem tier2_nil (ws : List Word) : tier2 ws [] = ws := by
  simp [tier2, containsAll]

theorem chosenTier_nil (ws : List Word) :
    chosenTier ws [] = if tier3 ws ≠ [] then tier3 ws else ws := by
  unfold chosenTier
  rw [tier1_nil, tier2_nil]
  by_cases h3 : tier3 ws ≠ []
  · simp only [h3, if_true, ne_eq, not_false_eq_true]
  · by_cases hws : ws ≠ []
    · simp only [h3, hws, if_true, if_false, ne_eq, not_false_eq_true]
    · simp only [h3, hws, if_false]

theorem collect_unique_mem (ws : List Word) (hlen : ∀ w ∈ ws, w.length = 5) (w : Word) :
    w ∈ collect (fun word => hasUniqueLetters word) ws [] ↔ w ∈ tier3 ws := by
  simp only [mem_collect, List.not_mem_nil, false_or, tier3, List.mem_filter]
  constructor
  · rintro ⟨hw, h⟩
    exact ⟨hw, by rw [← hasUniqueLetters_eq_fiveDistinct w (hlen w hw)]; exact h⟩
  · rintro ⟨hw, h⟩
    exact ⟨hw, by rw [hasUniqueLetters_eq_fiveDistinct w (hlen w hw)]; exact h⟩

theorem collect_yellows_mem (ws : List Word) (ys : List Char) (hlen : ∀ w ∈ ws, w.length = 5)
    (hys : ys ≠ []) (w : Word) :
    w ∈ collect (fun word => hasAllYellows word ys) ws [] ↔ w ∈ tier2 ws ys := by
  simp only [mem_collect, List.not_mem_nil, false_or, tier2, List.mem_filter, containsAll,
    decide_eq_true_eq]
  constructor
  · rintro ⟨hw, h⟩
    exact ⟨hw, ((hasAllYellows_iff w ys (by rw [hlen w hw]; norm_num)).mp h).2⟩
  · rintro ⟨hw, h⟩
    exact ⟨hw, (hasAllYellows_iff w ys (by rw [hlen w hw]; norm_num)).mpr ⟨hys, h⟩⟩

theorem collect_both_mem (ws : List Word) (ys : List Char) (hlen : ∀ w ∈ ws, w.length = 5)
    (hys : ys ≠ []) (w : Word) :
    w ∈ collect (fun word => hasUniqueLetters word && hasAllYellows word ys) ws []
      ↔ w ∈ tier1 ws ys := by
  simp only [mem_collect, List.not_mem_nil, false_or, tier1, List.mem_filter, containsAll,
    decide_eq_true_eq, Bool.and_eq_true]
  constructor
  · rintro ⟨hw, hu, h⟩
    exact ⟨hw, by rw [← hasUniqueLetters_eq_fiveDistinct w (hlen w hw)]; exact hu,
      ((hasAllYellows_iff w ys (by rw [hlen w hw]; norm_num)).mp h).2⟩
  · rintro ⟨hw, hu, h⟩
    exact ⟨hw, by rw [hasUniqueLetters_eq_fiveDistinct w (hlen w hw)]; exact hu,
      (hasAllYellows_iff w ys (by rw [hlen w hw]; norm_num)).mpr ⟨hys, h⟩⟩

theorem collect_nil_of_no_yellows (keep : Word → Bool) (ws : List Word)
    (hk : ∀ w, keep w = false) : collect keep ws [] = [] := by
  rw [List.eq_nil_iff_forall_not_mem]
  intro w hw
  rw [mem_collect] at hw
  rcases hw with hw | ⟨_, hw⟩
  · simp at hw
  · rw [hk w] at hw
    exact absurd hw (by decide)

theorem eq_nil_iff_of_mem_iff {l1 l2 : List Word} (h : ∀ w, w ∈ l1 ↔ w ∈ l2) :
    l1 = [] ↔ l2 = [] := by
  rw [List.eq_nil_iff_forall_not_mem, List.eq_nil_iff_forall_not_mem]
  exact ⟨fun h1 w hw => h1 w ((h w).mpr hw), fun h2 w hw => h2 w ((h w).mp hw)⟩

theorem isEmpty_eq_true_iff (l : List Word) : l.isEmpty = true ↔ l = [] := by
  cases l <;> simp

/-- The candidate set handed to `bestCandidate` has the members of the chosen tier. -/
theorem findBestCandidate_tier (ws : List Word) (ys : List Char) (lf : IntMap Char)
    (hlen : ∀ w ∈ ws, w.length = 5) :
    ∃ cands : List Word,
      findBestCandidate ws ys lf = bestCandidate cands (wordRankings cands lf) ∧
        ∀ w, w ∈ cands ↔ w ∈ chosenTier ws ys := by
  rw [findBestCandidate_unfold]
  simp only [isEmpty_eq_true_iff]
  have m3 := collect_unique_mem ws hlen
  have e3 := eq_nil_iff_of_mem_iff m3
  by_cases hys : ys = []
  · subst hys
    have c1 : collect (fun word => hasUniqueLetters word && hasAllYellows word []) ws [] = [] :=
      collect_nil_of_no_yellows _ ws (fun w => by simp [hasAllYellows])
    have c2 : collect (fun word => hasAllYellows word []) ws [] = [] :=
      collect_nil_of_no_yellows _ ws (fun w => by simp [hasAllYellows])
    rw [c1]
    simp only [not_true_eq_false, if_false]
    rw [c2]
    simp only [not_true_eq_false, if_false]
    rw [chosenTier_nil]
    by_cases h3 : collect (fun word => hasUniqueLetters word) ws [] = []
    · rw [if_neg (not_not.mpr h3), if_neg (not_not.mpr (e3.mp h3))]
      exact ⟨ws, rfl, fun w => Iff.rfl⟩
    · rw [if_pos h3, if_pos (fun h => h3 (e3.mpr h))]
      exact ⟨_, rfl, m3⟩
  · have m1 := collect_both_mem ws ys hlen hys
    have m2 := collect_yellows_mem ws ys hlen hys
    have e1 := eq_nil_iff_of_mem_iff m1
    have e2 := eq_nil_iff_of_mem_iff m2
    unfold chosenTier
    by_cases h1 : collect (fun word => hasUniqueLetters word && hasAllYellows word ys) ws [] = []
    · rw [if_neg (not_not.mpr h1), if_neg (not_not.mpr (e1.mp h1)), h1]
      by_cases h2 : collect (fun word => hasAllYellows word ys) ws [] = []
      · rw [if_neg (not_not.mpr h2), if_neg (not_not.mpr (e2.mp h2)), h2]
        by_cases h3 : collect (fun word => hasUniqueLetters word) ws [] = []
        · rw [if_neg (not_not.mpr h3), if_neg (not_not.mpr (e3.mp h3))]
          exact ⟨ws, rfl, fun w => Iff.rfl⟩
        · rw [if_pos h3, if_pos (fun h => h3 (e3.mpr h))]
          exact ⟨_, rfl, m3⟩
      · rw [if_pos h2, if_pos (fun h => h2 (e2.mpr h))]
        exact ⟨_, rfl, m2⟩
    · rw [if_pos h1, if_pos (fun h => h1 (e1.mpr h))]
      exact ⟨_, rfl, m1⟩

theorem wordRankings_get_congr (l1 l2 : List Word) (lf : IntMap Char)
    (h : ∀ w, w ∈ l1 ↔ w ∈ l2) (w : Word) :
    mapGet (wordRankings l1 lf) w = mapGet (wordRankings l2 lf) w := by
  rw [wordRankings_get, wordRankings_get]
  by_cases hw : w ∈ l1
  · rw [if_pos hw, if_pos ((h w).mp hw)]
  · rw [if_neg hw, if_neg (fun h2 => hw ((h w).mpr h2))]

theorem chosenTier_subset (ws : List Word) (ys : List Char) (w : Word)
    (hw : w ∈ chosenTier ws ys) : w ∈ ws := by
  unfold chosenTier at hw
  split_ifs at hw
  · exact (List.mem_filter.mp hw).1
  · exact (List.mem_filter.mp hw).1
  · exact (List.mem_filter.mp hw).1
  · exact hw

theorem chosenTier_ne_nil (ws : List Word) (ys : List Char) (hne : ws ≠ []) :
    chosenTier ws ys ≠ [] := by
  unfold chosenTier
  split_ifs with h1 h2 h3
  · exact h1
  · exact h2
  · exact h3
  · exact hne

theorem wordRankings_get_of_mem (l1 l2 : List Word) (lf : IntMap Char) (w : Word)
    (h1 : w ∈ l1) (h2 : w ∈ l2) :
    mapGet (wordRankings l1 lf) w = mapGet (wordRankings l2 lf) w := by
  rw [wordRankings_get, wordRankings_get, if_pos h1, if_pos h2]

/-- C6. For every working set of five-letter words, every KnownPresent (non-empty in
particular) and every frequency table under which each word of the working set has a positive score,
`findBestCandidate` returns a member of the first non-empty tier: of tier 1 when it has
a word; else of tier 2 when it has a word; else of tier 3 when it has a word; else of
the working set. -/
theorem findBestCandidate_first_nonempty_tier (ws : List Word) (ys : List Char)
    (lf : IntMap Char) (hlen : ∀ w ∈ ws, w.length = 5) (hne : ws ≠ [])
    (hpos : ∀ w ∈ ws, 0 < mapGet (wordRankings ws lf) w) :
    (tier1 ws ys ≠ [] → findBestCandidate ws ys lf ∈ tier1 ws ys) ∧
      (tier1 ws ys = [] → tier2 ws ys ≠ [] → findBestCandidate ws ys lf ∈ tier2 ws ys) ∧
      (tier1 ws ys = [] → tier2 ws ys = [] → tier3 ws ≠ [] →
        findBestCandidate ws ys lf ∈ tier3 ws) ∧
      (tier1 ws ys = [] → tier2 ws ys = [] → tier3 ws = [] →
        findBestCandidate ws ys lf ∈ ws) := by
  obtain ⟨cands, heq, hmem⟩ := findBestCandidate_tier ws ys lf hlen
  obtain ⟨w0, hw0⟩ := List.exists_mem_of_ne_nil _ (chosenTier_ne_nil ws ys hne)
  have hw0ws := chosenTier_subset ws ys w0 hw0
  have hw0c := (hmem w0).mpr hw0
  have hbest := (bestCandidate_of_positive cands (wordRankings cands lf)
    ⟨w0, hw0c, by rw [wordRankings_get_of_mem cands ws lf w0 hw0c hw0ws]; exact hpos w0 hw0ws⟩).1
  rw [← heq] at hbest
  have hin := (hmem _).mp hbest
  unfold chosenTier at hin
  refine ⟨?_, ?_, ?_, ?_⟩
  · intro h1
    rw [if_pos h1] at hin
    exact hin
  · intro h1 h2
    rw [if_neg (not_not.mpr h1), if_pos h2] at hin
    exact hin
  · intro h1 h2 h3
    rw [if_neg (not_not.mpr h1), if_neg (not_not.mpr h2), if_pos h3] at hin
    exact hin
  · intro h1 h2 h3
    rw [if_neg (not_not.mpr h1), if_neg (not_not.mpr h2), if_neg (not_not.mpr h3)] at hin
    exact hin

/-- Witness for C6: working set CRANE, MONEY, ABOUT with KnownPresent A and the table
of the working set; tier 1 is CRANE, ABOUT and the result is one of them, not MONEY. -/
theorem findBestCandidate_first_nonempty_tier_witness :
    tier1 [CRANE, MONEY, ABOUT] ['A'] = [CRANE, ABOUT] ∧
      findBestCandidate [CRANE, MONEY, ABOUT] ['A'] (letterFrequencies [CRANE, MONEY, ABOUT])
        ∈ tier1 [CRANE, MONEY, ABOUT] ['A'] :=
  ⟨by decide,
    (findBestCandidate_first_nonempty_tier [CRANE, MONEY, ABOUT] ['A']
      (letterFrequencies [CRANE, MONEY, ABOUT]) (by decide) (by decide) (by decide)).1
      (by decide)⟩

/-- C7. For every working set of five-letter words, every KnownPresent and every
frequency table under which each word of the chosen tier has a positive score, the
score (as `wordRankings` computes it) of the word returned by `findBestCandidate` is at
least the score of every member of the chosen tier. -/
theorem findBestCandidate_maximal (ws : List Word) (ys : List Char) (lf : IntMap Char)
    (hlen : ∀ w ∈ ws, w.length = 5)
    (hpos : ∀ w ∈ chosenTier ws ys, 0 < mapGet (wordRankings (chosenTier ws ys) lf) w) :
    ∀ w ∈ chosenTier ws ys,
      mapGet (wordRankings (chosenTier ws ys) lf) w
        ≤ mapGet (wordRankings (chosenTier ws ys) lf) (findBestCandidate ws ys lf) := by
  intro w hw
  obtain ⟨cands, heq, hmem⟩ := findBestCandidate_tier ws ys lf hlen
  have hbest := (bestCandidate_of_positive cands (wordRankings cands lf)
    ⟨w, (hmem w).mpr hw, by
      rw [wordRankings_get_congr cands (chosenTier ws ys) lf hmem]; exact hpos w hw⟩).2
      w ((hmem w).mpr hw)
  rw [← heq, wordRankings_get_congr cands (chosenTier ws ys) lf hmem,
    wordRankings_get_congr cands (chosenTier ws ys) lf hmem] at hbest
  exact hbest

/-- Witness for C7 on the working set CRANE, MONEY, ABOUT with KnownPresent A: the
chosen tier is CRANE, ABOUT, and ABOUT scores no more than the returned word. -/
theorem findBestCandidate_maximal_witness :
    chosenTier [CRANE, MONEY, ABOUT] ['A'] = [CRANE, ABOUT] ∧
      mapGet (wordRankings (chosenTier [CRANE, MONEY, ABOUT] ['A'])
          (letterFrequencies [CRANE, MONEY, ABOUT])) ABOUT
        ≤ mapGet (wordRankings (chosenTier [CRANE, MONEY, ABOUT] ['A'])
          (letterFrequencies [CRANE, MONEY, ABOUT]))
          (findBestCandidate [CRANE, MONEY, ABOUT] ['A'] (letterFrequencies [CRANE, MONEY, ABOUT])) :=
  ⟨by decide,
    findBestCandidate_maximal [CRANE, MONEY, ABOUT] ['A'] (letterFrequencies [CRANE, MONEY, ABOUT])
      (by decide) (by decide) ABOUT (by decide)⟩

/-- C8, as the code has it. For every working set of five-letter words, every
KnownPresent and every frequency table: when some word of the chosen tier has a
positive score, `findBestCandidate` returns a member of the chosen tier; when no word
of the chosen tier has a positive score, it returns the empty string. -/
theorem findBestCandidate_member_or_empty (ws : List Word) (ys : List Char) (lf : IntMap Char)
    (hlen : ∀ w ∈ ws, w.length = 5) :
    ((∃ w ∈ chosenTier ws ys, 0 < mapGet (wordRankings (chosenTier ws ys) lf) w) →
        findBestCandidate ws ys lf ∈ chosenTier ws ys) ∧
      ((∀ w ∈ chosenTier ws ys, mapGet (wordRankings (chosenTier ws ys) lf) w ≤ 0) →
        findBestCandidate ws ys lf = []) := by
  obtain ⟨cands, heq, hmem⟩ := findBestCandidate_tier ws ys lf hlen
  constructor
  · rintro ⟨w, hw, hpos⟩
    have hbest := (bestCandidate_of_positive cands (wordRankings cands lf)
      ⟨w, (hmem w).mpr hw, by
        rw [wordRankings_get_congr cands (chosenTier ws ys) lf hmem]; exact hpos⟩).1
    rw [← heq] at hbest
    exact (hmem _).mp hbest
  · intro hnp
    rw [heq]
    apply bestCandidate_of_nonpositive
    intro w hw
    rw [wordRankings_get_congr cands (chosenTier ws ys) lf hmem]
    exact hnp w ((hmem w).mp hw)

/-- Witness for the amended C8 on the working set CRANE, MONEY, ABOUT. -/
theorem findBestCandidate_member_or_empty_witness :
    (∀ w ∈ [CRANE, MONEY, ABOUT], w.length = 5) ∧
      findBestCandidate [CRANE, MONEY, ABOUT] ['A'] (letterFrequencies [CRANE, MONEY, ABOUT])
        ∈ chosenTier [CRANE, MONEY, ABOUT] ['A'] ∧
      findBestCandidate [CRANE, MONEY, ABOUT] ['A'] (letterFrequencies []) = [] :=
  ⟨by decide,
    (findBestCandidate_member_or_empty [CRANE, MONEY, ABOUT] ['A']
      (letterFrequencies [CRANE, MONEY, ABOUT]) (by decide)).1 (by decide),
    (findBestCandidate_member_or_empty [CRANE, MONEY, ABOUT] ['A']
      (letterFrequencies []) (by decide)).2 (by decide)⟩

/-- C8 as stated fails: on the working set with the one word CRANE and the all-zero
table (the table of the empty word set), `findBestCandidate` returns the empty string,
which is not in the chosen tier. -/
theorem findBestCandidate_all_zero_scores :
    ([CRANE] : List Word) ≠ [] ∧
      (∀ w ∈ chosenTier [CRANE] [], mapGet (wordRankings (chosenTier [CRANE] []) (letterFrequencies [])) w = 0) ∧
      findBestCandidate [CRANE] [] (letterFrequencies []) = [] ∧
      findBestCandidate [CRANE] [] (letterFrequencies []) ∉ chosenTier [CRANE] [] := by
  decide

/-! ## Look-ahead -/

theorem mem_positions (i : Fin 5) : i ∈ positions := by
  fin_cases i <;> decide

theorem greensAt_greensInsert (G : Greens) (c d : Char) (i p : Int) :
    p ∈ greensAt (greensInsert G c i) d ↔ p ∈ greensAt G d ∨ (d = c ∧ p = i) := by
  unfold greensInsert
  by_cases hd : d = c
  · subst hd
    simp only [greensAt, if_true, Option.getD_some, mem_setInsert, true_and]
    tauto
  · simp [greensAt, hd]

theorem greensInsert_eq_none (G : Greens) (c d : Char) (i : Int) :
    greensInsert G c i d = none ↔ G d = none ∧ d ≠ c := by
  unfold greensInsert
  by_cases hd : d = c
  · simp [hd]
  · simp [hd]

theorem lookAhead_loop_yellows (g : Word) (res : Feedback) (L : List (Fin 5))
    (acc : Greens × List Char) (c : Char) :
    c ∈ (L.foldl
      (fun acc i =>
        if res i = GREEN then (greensInsert acc.1 (charAt g i) i, acc.2)
        else if res i = YELLOW then (acc.1, setInsert (charAt g i) acc.2)
        else acc) acc).2 ↔ c ∈ acc.2 ∨ ∃ i ∈ L, res i = YELLOW ∧ charAt g i = c := by
  induction L generalizing acc with
  | nil => simp
  | cons j L ih =>
    simp only [List.foldl_cons, ih, List.mem_cons, exists_eq_or_imp]
    by_cases hG : res j = GREEN
    · have hY : res j ≠ YELLOW := by rw [hG]; decide
      simp [hG]
    · by_cases hY : res j = YELLOW
      · simp only [hY, reduceCtorEq, if_true, if_false, mem_setInsert, true_and]
        constructor
        · rintro ((h | h) | h)
          · exact Or.inr (Or.inl h.symm)
          · exact Or.inl h
          · exact Or.inr (Or.inr h)
        · rintro (h | h | h)
          · exact Or.inl (Or.inr h)
          · exact Or.inl (Or.inl h.symm)
          · exact Or.inr h
      · simp [hG, hY]

theorem lookAhead_loop_greens (g : Word) (res : Feedback) (L : List (Fin 5))
    (acc : Greens × List Char) (c : Char) (p : Int) :
    p ∈ greensAt (L.foldl
      (fun acc i =>
        if res i = GREEN then (greensInsert acc.1 (charAt g i) i, acc.2)
        else if res i = YELLOW then (acc.1, setInsert (charAt g i) acc.2)
        else acc) acc).1 c
      ↔ p ∈ greensAt acc.1 c ∨ ∃ i ∈ L, res i = GREEN ∧ charAt g i = c ∧ p = ((i : Nat) : Int) := by
  induction L generalizing acc with
  | nil => simp
  | cons j L ih =>
    simp only [List.foldl_cons, ih, List.mem_cons, exists_eq_or_imp]
    by_cases hG : res j = GREEN
    · simp only [hG, if_true, greensAt_greensInsert, true_and]
      constructor
      · rintro ((h | ⟨h1, h2⟩) | h)
        · exact Or.inl h
        · exact Or.inr (Or.inl ⟨h1.symm, h2⟩)
        · exact Or.inr (Or.inr h)
      · rintro (h | ⟨h1, h2⟩ | h)
        · exact Or.inl (Or.inl h)
        · exact Or.inl (Or.inr ⟨h1.symm, h2⟩)
        · exact Or.inr h
    · by_cases hY : res j = YELLOW
      · simp [hG, hY]
      · simp [hG, hY]

theorem lookAhead_loop_none (g : Word) (res : Feedback) (L : List (Fin 5))
    (acc : Greens × List Char) (c : Char) :
    (L.foldl
      (fun acc i =>
        if res i = GREEN then (greensInsert acc.1 (charAt g i) i, acc.2)
        else if res i = YELLOW then (acc.1, setInsert (charAt g i) acc.2)
        else acc) acc).1 c = none
      ↔ acc.1 c = none ∧ ∀ i ∈ L, ¬ (res i = GREEN ∧ charAt g i = c) := by
  induction L generalizing acc with
  | nil => simp
  | cons j L ih =>
    simp only [List.foldl_cons, ih, List.mem_cons, forall_eq_or_imp]
    by_cases hG : res j = GREEN
    · simp only [hG, if_true, greensInsert_eq_none, true_and]
      constructor
      · rintro ⟨⟨h1, h2⟩, h3⟩
        exact ⟨h1, fun e => h2 e.symm, h3⟩
      · rintro ⟨h1, h2, h3⟩
        exact ⟨⟨h1, fun e => h2 e.symm⟩, h3⟩
    · by_cases hY : res j = YELLOW
      · simp [hG, hY]
      · simp [hG, hY]

theorem mem_lookAhead_yellows (g : Word) (res : Feedback) (acc : Greens × List Char) (c : Char) :
    c ∈ (lookAhead g res acc).2 ↔ c ∈ acc.2 ∨ ∃ i, res i = YELLOW ∧ charAt g i = c := by
  unfold lookAhead
  rw [lookAhead_loop_yellows]
  simp [mem_positions]

theorem mem_lookAhead_greens (g : Word) (res : Feedback) (acc : Greens × List Char) (c : Char)
    (p : Int) :
    p ∈ greensAt (lookAhead g res acc).1 c
      ↔ p ∈ greensAt acc.1 c ∨ ∃ i, res i = GREEN ∧ charAt g i = c ∧ p = ((i : Nat) : Int) := by
  unfold lookAhead
  rw [lookAhead_loop_greens]
  simp [mem_positions]

theorem lookAhead_greens_eq_none (g : Word) (res : Feedback) (acc : Greens × List Char)
    (c : Char) :
    (lookAhead g res acc).1 c = none
      ↔ acc.1 c = none ∧ ∀ i, ¬ (res i = GREEN ∧ charAt g i = c) := by
  unfold lookAhead
  rw [lookAhead_loop_none]
  simp [mem_positions]

/-! ## The filtering loop -/

theorem greensInsert_of_mem (G : Greens) (c : Char) (i : Int) (h : i ∈ greensAt G c) :
    greensInsert G c i = G := by
  funext d
  unfold greensInsert
  by_cases hd : d = c
  · subst hd
    rw [if_pos rfl, setInsert_of_mem i _ h]
    unfold greensAt at h ⊢
    cases hG : G d with
    | none => rw [hG] at h; simp at h
    | some l => simp
  · rw [if_neg hd]

theorem filterStep_eq (g : Word) (res : Feedback) (Y : List Char) (ws : List Word) (G : Greens)
    (i : Fin 5) (hG : res i = GREEN → ((i : Nat) : Int) ∈ greensAt G (charAt g i)) :
    filterStep g res Y (ws, G) i = (ws.filter (survives G Y g res i), G) := by
  unfold filterStep survives erase_if
  cases hres : res i with
  | GREEN =>
    simp only [if_true, greensInsert_of_mem G _ _ (hG hres)]
    congr 1
    apply List.filter_congr
    intro w _
    simp
  | YELLOW =>
    simp only [reduceCtorEq, if_false, if_true]
  | GRAY =>
    simp only [reduceCtorEq, if_false, if_true, true_and]
    by_cases h1 : ¬ greensContains G (charAt g i) = true ∧ charAt g i ∉ Y
    · simp only [if_pos h1]
      congr 1
      apply List.filter_congr
      intro w _
      simp
    · simp only [if_neg h1]
      by_cases h2 : charAt g i ∉ Y
      · simp only [if_pos h2]
        congr 1
        apply List.filter_congr
        intro w _
        simp
      · simp only [if_neg h2]
        simp
  | ERROR =>
    simp

theorem filterLoop_eq (g : Word) (res : Feedback) (Y : List Char) (G : Greens)
    (hG : ∀ i, res i = GREEN → ((i : Nat) : Int) ∈ greensAt G (charAt g i))
    (L : List (Fin 5)) (ws : List Word) :
    L.foldl (filterStep g res Y) (ws, G)
      = (ws.filter (fun w => L.all (fun i => survives G Y g res i w)), G) := by
  induction L generalizing ws with
  | nil => simp
  | cons j L ih =>
    rw [List.foldl_cons, filterStep_eq g res Y ws G j (hG j), ih, List.filter_filter]
    congr 1
    apply List.filter_congr
    intro w _
    simp [Bool.and_comm]

theorem recorded_green (st : State) (g : Word) (res : Feedback) (i : Fin 5)
    (h : res i = GREEN) : ((i : Nat) : Int) ∈ greensAt (recorded st g res).1 (charAt g i) := by
  unfold recorded
  rw [mem_lookAhead_greens]
  exact Or.inr ⟨i, h, rfl, rfl⟩

theorem processRound_same (st : State) (g : Word) (res : Feedback) :
    processRound st g res true =
      { st with
        possibleWords := setErase (st.possibleWords.filter (fun w =>
          positions.all
            (fun i => survives (recorded st g res).1 (recorded st g res).2 g res i w))) g
        greens := (recorded st g res).1
        yellows := (recorded st g res).2
        numGuesses := st.numGuesses + 1 } := by
  unfold processRound
  simp only [if_true]
  rw [filterLoop_eq g res (recorded st g res).2 (recorded st g res).1
    (recorded_green st g res) positions st.possibleWords]

theorem mem_processRound (st : State) (g : Word) (res : Feedback) (w : Word) :
    w ∈ (processRound st g res true).possibleWords ↔
      w ∈ st.possibleWords ∧ w ≠ g ∧
        ∀ i, survives (recorded st g res).1 (recorded st g res).2 g res i w = true := by
  rw [processRound_same]
  simp only [mem_setErase, List.mem_filter, List.all_eq_true]
  constructor
  · rintro ⟨⟨h1, h2⟩, h3⟩
    exact ⟨h1, h3, fun i => h2 i (mem_positions i)⟩
  · rintro ⟨h1, h2, h3⟩
    exact ⟨⟨h1, fun i _ => h3 i⟩, h2⟩

theorem processRound_subset (st : State) (g : Word) (res : Feedback) (w : Word)
    (hw : w ∈ (processRound st g res true).possibleWords) : w ∈ st.possibleWords :=
  ((mem_processRound st g res w).mp hw).1

/-! ## What surviving a position means -/

theorem static_cast_int_small (n : Nat) (h : n < 2 ^ 31) : static_cast_int n = (n : Int) := by
  unfold static_cast_int
  have h1 : n % 2 ^ 32 = n := Nat.mod_eq_of_lt (by omega)
  rw [h1, if_pos h]

theorem static_cast_int_npos : static_cast_int npos = -1 := by decide

theorem findFrom_spec (c : Char) (pos : Nat) (xs : List Char) (k : Nat) :
    findFrom c pos xs k = npos ∨
      ∃ j, findFrom c pos xs k = k + j ∧ pos ≤ k + j ∧ xs[j]? = some c := by
  induction xs generalizing k with
  | nil => exact Or.inl rfl
  | cons x xs ih =>
    unfold findFrom
    by_cases h : pos ≤ k ∧ x = c
    · rw [if_pos h]
      exact Or.inr ⟨0, rfl, h.1, by simp [h.2]⟩
    · rw [if_neg h]
      rcases ih (k + 1) with h1 | ⟨j, h1, h2, h3⟩
      · exact Or.inl h1
      · exact Or.inr ⟨j + 1, by rw [h1]; omega, by omega, by simpa using h3⟩

theorem findFrom_at (c : Char) (xs : List Char) (j k : Nat) (h : xs[j]? = some c) :
    findFrom c (k + j) xs k = k + j := by
  induction xs generalizing j k with
  | nil => simp at h
  | cons x xs ih =>
    unfold findFrom
    cases j with
    | zero =>
      have hx : x = c := by simpa using h
      simp [hx]
    | succ j =>
      have hlt : ¬ (k + (j + 1) ≤ k ∧ x = c) := by omega
      rw [if_neg hlt]
      have h2 : xs[j]? = some c := by simpa using h
      have := ih j (k + 1) h2
      rw [show k + (j + 1) = k + 1 + j by omega]
      exact this

theorem charAt_eq_of_getElem? (w : Word) (i : Nat) (c : Char) (h : w[i]? = some c) :
    charAt w i = c := by
  simp [charAt, List.getD_eq_getElem?_getD, h]

theorem getElem?_of_charAt (w : Word) (i : Nat) (hi : i < w.length) :
    w[i]? = some (charAt w i) := by
  simp [charAt, List.getD_eq_getElem?_getD, List.getElem?_eq_getElem hi]

theorem charAt_mem (w : Word) (i : Nat) (hi : i < w.length) : charAt w i ∈ w := by
  have h := getElem?_of_charAt w i hi
  exact List.getElem?_mem h

/-- Surviving the `GREEN` test at `i` means carrying the letter at `i`. -/
theorem green_test_iff (w : Word) (c : Char) (i : Fin 5) (hlen : w.length = 5) :
    static_cast_int (find w c i) = ((i : Nat) : Int) ↔ charAt w i = c := by
  constructor
  · intro h
    rcases findFrom_spec c i w 0 with h1 | ⟨j, h1, h2, h3⟩
    · unfold find at h
      rw [h1, static_cast_int_npos] at h
      omega
    · unfold find at h
      have hj : j < w.length := by
        by_contra hge
        rw [List.getElem?_eq_none (by omega)] at h3
        exact absurd h3 (by simp)
      rw [h1, static_cast_int_small (0 + j) (by omega)] at h
      have hji : j = i := by omega
      rw [hji] at h3
      exact charAt_eq_of_getElem? w i c h3
  · intro h
    have hi : (i : Nat) < w.length := by omega
    have h3 := getElem?_of_charAt w i hi
    rw [h] at h3
    have := findFrom_at c w i 0 h3
    unfold find
    rw [Nat.zero_add] at this
    rw [this, static_cast_int_small i (by omega)]

theorem survives_green (G : Greens) (Y : List Char) (g : Word) (res : Feedback) (i : Fin 5)
    (w : Word) (hlen : w.length = 5) (hres : res i = GREEN) :
    survives G Y g res i w = true ↔ charAt w i = charAt g i := by
  unfold survives
  simp only [hres, if_true, decide_eq_true_eq]
  exact green_test_iff w (charAt g i) i hlen

theorem survives_yellow (G : Greens) (Y : List Char) (g : Word) (res : Feedback) (i : Fin 5)
    (w : Word) (hlen : w.length = 5) (hres : res i = YELLOW) :
    survives G Y g res i w = true ↔ charAt w i ≠ charAt g i ∧ charAt g i ∈ w := by
  unfold survives
  have hnp := find_zero_eq_npos_iff w (charAt g i) (by rw [hlen]; norm_num)
  simp only [hres, reduceCtorEq, if_false, if_true, Bool.not_eq_true', Bool.or_eq_false_iff,
    decide_eq_false_iff_not, hnp, not_not, ne_eq]

theorem survives_gray_unknown (G : Greens) (Y : List Char) (g : Word) (res : Feedback)
    (i : Fin 5) (w : Word) (hlen : w.length = 5) (hres : res i = GRAY)
    (hG : G (charAt g i) = none) (hY : charAt g i ∉ Y) :
    survives G Y g res i w = true ↔ charAt g i ∉ w := by
  unfold survives
  have hnp := find_zero_eq_npos_iff w (charAt g i) (by rw [hlen]; norm_num)
  have hc : ¬ greensContains G (charAt g i) = true := by simp [greensContains, hG]
  simp only [hres, reduceCtorEq, if_false, true_and]
  rw [if_pos ⟨hc, hY⟩]
  simp only [decide_eq_true_eq, hnp]

theorem survives_gray_placed (G : Greens) (Y : List Char) (g : Word) (res : Feedback)
    (i : Fin 5) (w : Word) (hres : res i = GRAY)
    (hG : G (charAt g i) ≠ none) (hY : charAt g i ∉ Y) :
    survives G Y g res i w = true ↔
      static_cast_int (find w (charAt g i) 0) ∈ greensAt G (charAt g i) := by
  unfold survives
  have hc : greensContains G (charAt g i) = true := by
    simp only [greensContains]
    cases h : G (charAt g i) with
    | none => exact absurd h hG
    | some l => rfl
  simp only [hres, reduceCtorEq, if_false, true_and]
  rw [if_neg (fun h => h.1 hc), if_pos trivial, if_pos hY]
  simp

theorem survives_gray_present (G : Greens) (Y : List Char) (g : Word) (res : Feedback)
    (i : Fin 5) (w : Word) (hres : res i = GRAY) (hY : charAt g i ∈ Y) :
    survives G Y g res i w = true := by
  unfold survives
  simp only [hres, reduceCtorEq, if_false, true_and]
  rw [if_neg (fun h => h.2 hY), if_pos trivial, if_neg (not_not.mpr hY)]

theorem survives_error (G : Greens) (Y : List Char) (g : Word) (res : Feedback)
    (i : Fin 5) (w : Word) (hres : res i = ERROR) : survives G Y g res i w = true := by
  unfold survives
  simp [hres]

/-! ## The claims on the Constraint Filter -/

theorem runRounds_subset (st : State) (rounds : List (Word × Feedback)) (w : Word)
    (hw : w ∈ (runRounds st rounds).possibleWords) : w ∈ st.possibleWords := by
  induction rounds generalizing st with
  | nil => exact hw
  | cons r rs ih =>
    exact processRound_subset st r.1 r.2 w (ih (processRound st r.1 r.2 true) hw)

/-- C2. After any sequence of accepted rounds on a working set of five-letter words,
every remaining word `w` satisfies, for every round `(g, s)` of the sequence and every
index `i`: if `s[i]` is Correct then `w[i] = g[i]`; if `s[i]` is Present then
`w[i] ≠ g[i]` and `w` contains `g[i]`. -/
theorem remaining_words_consistent (st : State) (rounds : List (Word × Feedback))
    (hlen : ∀ w ∈ st.possibleWords, w.length = 5) :
    ∀ w ∈ (runRounds st rounds).possibleWords, ∀ r ∈ rounds, ∀ i : Fin 5,
      (r.2 i = GREEN → charAt w i = charAt r.1 i) ∧
        (r.2 i = YELLOW → charAt w i ≠ charAt r.1 i ∧ charAt r.1 i ∈ w) := by
  induction rounds generalizing st with
  | nil => intro w _ r hr; simp at hr
  | cons r0 rs ih =>
    intro w hw r hr i
    have hw1 : w ∈ (processRound st r0.1 r0.2 true).possibleWords :=
      runRounds_subset (processRound st r0.1 r0.2 true) rs w hw
    rcases List.mem_cons.mp hr with rfl | hr
    · obtain ⟨hws, _, hsurv⟩ := (mem_processRound st r.1 r.2 w).mp hw1
      have hl := hlen w hws
      constructor
      · intro hG
        exact (survives_green _ _ r.1 r.2 i w hl hG).mp (hsurv i)
      · intro hY
        exact (survives_yellow _ _ r.1 r.2 i w hl hY).mp (hsurv i)
    · exact ih (processRound st r0.1 r0.2 true)
        (fun v hv => hlen v (processRound_subset st r0.1 r0.2 v hv)) w hw r hr i

/-- Witness for C2: the four scripted rounds FADES, BROWN, MIGHT, PLUCK with A Present,
E Correct at index 3 and everything else Absent; AYAEX is what remains. -/
theorem remaining_words_consistent_witness :
    (runRounds (freshState scriptedLexicon scriptedLexicon (letterFrequencies scriptedLexicon))
        scriptedRounds).possibleWords = [AYAEX] ∧
      ∀ w ∈ (runRounds
          (freshState scriptedLexicon scriptedLexicon (letterFrequencies scriptedLexicon))
          scriptedRounds).possibleWords,
        ∀ r ∈ scriptedRounds, ∀ i : Fin 5,
          (r.2 i = GREEN → charAt w i = charAt r.1 i) ∧
            (r.2 i = YELLOW → charAt w i ≠ charAt r.1 i ∧ charAt r.1 i ∈ w) :=
  ⟨by decide,
    remaining_words_consistent
      (freshState scriptedLexicon scriptedLexicon (letterFrequencies scriptedLexicon))
      scriptedRounds (by decide)⟩

/-- C4. In an accepted round on a working set of five-letter words, at an index `i`
whose status is Absent, with `L = guess[i]` and KnownPlacements, KnownPresent taken
after the statuses of this guess have been recorded: if `L` has no recorded placement
and is not in KnownPresent, no word left after the round contains `L`; if `L` is in
KnownPresent, the loop body at `i` changes nothing. -/
theorem absent_letter_rule (st : State) (g : Word) (res : Feedback) (i : Fin 5)
    (hlen : ∀ w ∈ st.possibleWords, w.length = 5) (hgray : res i = GRAY) :
    ((recorded st g res).1 (charAt g i) = none → charAt g i ∉ (recorded st g res).2 →
        ∀ w ∈ (processRound st g res true).possibleWords, charAt g i ∉ w) ∧
      (charAt g i ∈ (recorded st g res).2 →
        ∀ acc : List Word × Greens, filterStep g res (recorded st g res).2 acc i = acc) := by
  constructor
  · intro hG hY w hw
    obtain ⟨hws, _, hsurv⟩ := (mem_processRound st g res w).mp hw
    exact (survives_gray_unknown _ _ g res i w (hlen w hws) hgray hG hY).mp (hsurv i)
  · intro hY acc
    unfold filterStep
    simp only [hgray, reduceCtorEq, if_false, true_and]
    rw [if_neg (fun h => h.2 hY), if_pos trivial, if_neg (not_not.mpr hY)]

/-- Witness for C4: SEEDY against the secret SCENT; D at index 3 is Absent and wholly
unknown, and no word left contains D. -/
theorem absent_letter_rule_witness :
    standardFeedback SCENT SEEDY 3 = GRAY ∧
      ∀ w ∈ (processRound (freshState scentLexicon scentLexicon (letterFrequencies scentLexicon))
          SEEDY (standardFeedback SCENT SEEDY) true).possibleWords, charAt SEEDY (3 : Fin 5) ∉ w :=
  ⟨by decide,
    (absent_letter_rule (freshState scentLexicon scentLexicon (letterFrequencies scentLexicon))
      SEEDY (standardFeedback SCENT SEEDY) 3 (by decide) (by decide)).1 (by decide) (by decide)⟩

/-- C5, as the code has it. In a round whose feedback is Invalid at all five
positions while the puzzle instance stays the same, no index of the loop prunes
anything; the working set loses the guessed word and nothing else, and RoundCounter
goes up by one. -/
theorem invalid_round_only_drops_guess (st : State) (g : Word) (res : Feedback)
    (hall : ∀ i, res i = ERROR) :
    (∀ (Y : List Char) (acc : List Word × Greens) (i : Fin 5), filterStep g res Y acc i = acc) ∧
      (processRound st g res true).possibleWords = setErase st.possibleWords g ∧
      (processRound st g res true).numGuesses = st.numGuesses + 1 := by
  refine ⟨?_, ?_, ?_⟩
  · intro Y acc i
    unfold filterStep
    simp [hall i]
  · rw [processRound_same]
    simp only
    congr 1
    rw [List.filter_eq_self]
    intro w _
    rw [List.all_eq_true]
    intro i _
    exact survives_error _ _ g res i w (hall i)
  · rw [processRound_same]

/-- Witness for the amended C5: the first round of a puzzle (guess FADES) answered with
Invalid at all five positions. -/
theorem invalid_round_only_drops_guess_witness :
    (∀ i, allError i = ERROR) ∧
      (processRound (freshState scriptedLexicon scriptedLexicon (letterFrequencies scriptedLexicon))
        FADES allError true).possibleWords = setErase scriptedLexicon FADES ∧
      (processRound (freshState scriptedLexicon scriptedLexicon (letterFrequencies scriptedLexicon))
        FADES allError true).numGuesses = 0 + 1 :=
  ⟨by decide,
    (invalid_round_only_drops_guess
      (freshState scriptedLexicon scriptedLexicon (letterFrequencies scriptedLexicon))
      FADES allError (by decide)).2⟩

/-- C5 as stated fails: the controller's first round (guess FADES), answered with
Invalid at all five positions in the same puzzle instance, removes FADES from the
working set and moves RoundCounter from 0 to 1. -/
theorem invalid_round_is_counted :
    chooseGuess (freshState scriptedLexicon scriptedLexicon (letterFrequencies scriptedLexicon))
        = FADES ∧
      (∀ i, allError i = ERROR) ∧
      (step (freshState scriptedLexicon scriptedLexicon (letterFrequencies scriptedLexicon))
        allError true).possibleWords = [CRANE, ALTER, TAKEN, AYAEX] ∧
      (step (freshState scriptedLexicon scriptedLexicon (letterFrequencies scriptedLexicon))
        allError true).possibleWords
        ≠ (freshState scriptedLexicon scriptedLexicon (letterFrequencies scriptedLexicon)).possibleWords ∧
      (step (freshState scriptedLexicon scriptedLexicon (letterFrequencies scriptedLexicon))
        allError true).numGuesses = 1 ∧
      (freshState scriptedLexicon scriptedLexicon (letterFrequencies scriptedLexicon)).numGuesses
        = 0 := by
  decide

/-! ## The standard feedback rule -/

theorem feedbackScan_cons (g s : Char) (gs ss pool : List Char) :
    feedbackScan (g :: gs) (s :: ss) pool =
      if g = s then GREEN :: feedbackScan gs ss pool
      else if g ∈ pool then YELLOW :: feedbackScan gs ss (pool.erase g)
      else GRAY :: feedbackScan gs ss pool := by
  simp only [feedbackScan]

theorem feedbackScan_nil_left (ss pool : List Char) : feedbackScan [] ss pool = [] := by
  simp only [feedbackScan]

theorem feedbackScan_nil_right (gs pool : List Char) : feedbackScan gs [] pool = [] := by
  cases gs <;> simp only [feedbackScan]

theorem feedbackScan_length (gs ss pool : List Char) (h : gs.length = ss.length) :
    (feedbackScan gs ss pool).length = gs.length := by
  induction gs generalizing ss pool with
  | nil => simp [feedbackScan_nil_left]
  | cons g gs ih =>
    cases ss with
    | nil => simp at h
    | cons s ss =>
      have h2 : gs.length = ss.length := by simpa using h
      rw [feedbackScan_cons]
      split_ifs <;> simp [ih _ _ h2]

theorem feedbackScan_green (gs ss pool : List Char) (k : Nat)
    (h : (feedbackScan gs ss pool)[k]? = some GREEN) :
    ∃ c, gs[k]? = some c ∧ ss[k]? = some c := by
  induction gs generalizing ss pool k with
  | nil => simp [feedbackScan_nil_left] at h
  | cons g gs ih =>
    cases ss with
    | nil => simp [feedbackScan_nil_right] at h
    | cons s ss =>
      rw [feedbackScan_cons] at h
      cases k with
      | zero =>
        by_cases hgs : g = s
        · exact ⟨g, by simp, by simp [hgs]⟩
        · rw [if_neg hgs] at h
          split_ifs at h <;> simp at h
      | succ k =>
        have h2 : (feedbackScan gs ss pool)[k]? = some GREEN ∨
            (feedbackScan gs ss (pool.erase g))[k]? = some GREEN := by
          split_ifs at h
          · exact Or.inl (by simpa using h)
          · exact Or.inr (by simpa using h)
          · exact Or.inl (by simpa using h)
        rcases h2 with h2 | h2
        · simpa using ih ss pool k h2
        · simpa using ih ss (pool.erase g) k h2

theorem feedbackScan_of_eq (gs ss pool : List Char) (k : Nat) (c : Char)
    (hg : gs[k]? = some c) (hs : ss[k]? = some c) :
    (feedbackScan gs ss pool)[k]? = some GREEN := by
  induction gs generalizing ss pool k with
  | nil => simp at hg
  | cons g gs ih =>
    cases ss with
    | nil => simp at hs
    | cons s ss =>
      rw [feedbackScan_cons]
      cases k with
      | zero =>
        have h1 : g = c := by simpa using hg
        have h2 : s = c := by simpa using hs
        simp [h1, h2]
      | succ k =>
        have h1 : gs[k]? = some c := by simpa using hg
        have h2 : ss[k]? = some c := by simpa using hs
        split_ifs
        · simpa using ih ss pool k h1 h2
        · simpa using ih ss (pool.erase g) k h1 h2
        · simpa using ih ss pool k h1 h2

theorem feedbackScan_yellow (gs ss pool : List Char) (k : Nat)
    (h : (feedbackScan gs ss pool)[k]? = some YELLOW) :
    ∃ c d, gs[k]? = some c ∧ ss[k]? = some d ∧ c ≠ d ∧ c ∈ pool := by
  induction gs generalizing ss pool k with
  | nil => simp [feedbackScan_nil_left] at h
  | cons g gs ih =>
    cases ss with
    | nil => simp [feedbackScan_nil_right] at h
    | cons s ss =>
      rw [feedbackScan_cons] at h
      cases k with
      | zero =>
        by_cases hgs : g = s
        · rw [if_pos hgs] at h
          simp at h
        · rw [if_neg hgs] at h
          by_cases hp : g ∈ pool
          · exact ⟨g, s, by simp, by simp, hgs, hp⟩
          · rw [if_neg hp] at h
            simp at h
      | succ k =>
        by_cases hgs : g = s
        · rw [if_pos hgs] at h
          simpa using ih ss pool k (by simpa using h)
        · rw [if_neg hgs] at h
          by_cases hp : g ∈ pool
          · rw [if_pos hp] at h
            obtain ⟨c, d, h1, h2, h3, h4⟩ := ih ss (pool.erase g) k (by simpa using h)
            exact ⟨c, d, by simpa using h1, by simpa using h2, h3, List.mem_of_mem_erase h4⟩
          · rw [if_neg hp] at h
            simpa using ih ss pool k (by simpa using h)

theorem feedbackScan_gray (gs ss pool : List Char) (k : Nat) (c : Char)
    (h : (feedbackScan gs ss pool)[k]? = some GRAY) (hc : gs[k]? = some c)
    (hno : ∀ j : Nat, (feedbackScan gs ss pool)[j]? = some YELLOW → gs[j]? ≠ some c) :
    c ∉ pool := by
  induction gs generalizing ss pool k with
  | nil => simp at hc
  | cons g gs ih =>
    cases ss with
    | nil => simp [feedbackScan_nil_right] at h
    | cons s ss =>
      rw [feedbackScan_cons] at h hno
      cases k with
      | zero =>
        have hgc : g = c := by simpa using hc
        subst hgc
        by_cases hgs : g = s
        · rw [if_pos hgs] at h
          simp at h
        · rw [if_neg hgs] at h
          by_cases hp : g ∈ pool
          · rw [if_pos hp] at h
            simp at h
          · exact hp
      | succ k =>
        have hc2 : gs[k]? = some c := by simpa using hc
        by_cases hgs : g = s
        · rw [if_pos hgs] at h hno
          exact ih ss pool k (by simpa using h) hc2
            (fun (j : Nat) hj => by simpa using hno (j + 1) (by simpa using hj))
        · rw [if_neg hgs] at h hno
          by_cases hp : g ∈ pool
          · rw [if_pos hp] at h hno
            have hgc : g ≠ c := by
              intro e
              exact hno 0 (by simp) (by simp [e])
            have := ih ss (pool.erase g) k (by simpa using h) hc2
              (fun (j : Nat) hj => by simpa using hno (j + 1) (by simpa using hj))
            intro hcp
            exact this ((List.mem_erase_of_ne (fun e => hgc e.symm)).mpr hcp)
          · rw [if_neg hp] at h hno
            exact ih ss pool k (by simpa using h) hc2
              (fun (j : Nat) hj => by simpa using hno (j + 1) (by simpa using hj))

theorem mem_unmatched (ss gs : List Char) (p : Nat) (c d : Char)
    (hs : ss[p]? = some c) (hg : gs[p]? = some d) (hne : d ≠ c) : c ∈ unmatched ss gs := by
  unfold unmatched
  induction gs generalizing ss p with
  | nil => simp at hg
  | cons g gs ih =>
    cases ss with
    | nil => simp at hs
    | cons s ss =>
      cases p with
      | zero =>
        have h1 : g = d := by simpa using hg
        have h2 : s = c := by simpa using hs
        subst h1 h2
        simp [hne]
      | succ p =>
        have h1 : gs[p]? = some d := by simpa using hg
        have h2 : ss[p]? = some c := by simpa using hs
        have := ih ss p h2 h1
        rw [List.zip_cons_cons, List.filter_cons]
        split_ifs
        · rw [List.map_cons]
          exact List.mem_cons_of_mem _ this
        · exact this

theorem unmatched_subset (ss gs : List Char) (c : Char) (h : c ∈ unmatched ss gs) : c ∈ ss := by
  unfold unmatched at h
  simp only [List.mem_map, List.mem_filter] at h
  obtain ⟨⟨d, c2⟩, ⟨hmem, _⟩, rfl⟩ := h
  exact (List.of_mem_zip hmem).2

theorem standardFeedback_getElem? (secret g : Word) (hs : secret.length = 5)
    (hg : g.length = 5) (i : Fin 5) :
    (feedbackScan g secret (unmatched secret g))[(i : Nat)]? = some (standardFeedback secret g i) := by
  have hl := feedbackScan_length g secret (unmatched secret g) (by rw [hs, hg])
  have hlt : (i : Nat) < (feedbackScan g secret (unmatched secret g)).length := by
    rw [hl, hg]; exact i.isLt
  unfold standardFeedback
  rw [List.getD_eq_getElem?_getD, List.getElem?_eq_getElem hlt]
  simp

theorem standardFeedback_green (secret g : Word) (hs : secret.length = 5) (hg : g.length = 5)
    (i : Fin 5) (h : standardFeedback secret g i = GREEN) : charAt g i = charAt secret i := by
  have h1 := standardFeedback_getElem? secret g hs hg i
  rw [h] at h1
  obtain ⟨c, h2, h3⟩ := feedbackScan_green _ _ _ _ h1
  rw [charAt_eq_of_getElem? g i c h2, charAt_eq_of_getElem? secret i c h3]

theorem standardFeedback_of_eq (secret g : Word) (hs : secret.length = 5) (hg : g.length = 5)
    (i : Fin 5) (h : charAt g i = charAt secret i) : standardFeedback secret g i = GREEN := by
  have h1 := standardFeedback_getElem? secret g hs hg i
  have h2 := getElem?_of_charAt g i (by rw [hg]; exact i.isLt)
  have h3 := getElem?_of_charAt secret i (by rw [hs]; exact i.isLt)
  rw [← h] at h3
  rw [feedbackScan_of_eq g secret _ i _ h2 h3] at h1
  exact (Option.some.inj h1).symm

theorem standardFeedback_yellow (secret g : Word) (hs : secret.length = 5) (hg : g.length = 5)
    (i : Fin 5) (h : standardFeedback secret g i = YELLOW) :
    charAt g i ≠ charAt secret i ∧ charAt g i ∈ secret := by
  have h1 := standardFeedback_getElem? secret g hs hg i
  rw [h] at h1
  obtain ⟨c, d, h2, h3, h4, h5⟩ := feedbackScan_yellow _ _ _ _ h1
  rw [charAt_eq_of_getElem? g i c h2, charAt_eq_of_getElem? secret i d h3]
  exact ⟨h4, unmatched_subset secret g c h5⟩

theorem standardFeedback_gray (secret g : Word) (hs : secret.length = 5) (hg : g.length = 5)
    (i : Fin 5) (h : standardFeedback secret g i = GRAY)
    (hno : ∀ j, standardFeedback secret g j = YELLOW → charAt g j ≠ charAt g i) (p : Fin 5)
    (hp : charAt secret p = charAt g i) :
    standardFeedback secret g p = GREEN ∧ charAt g p = charAt g i := by
  have h1 := standardFeedback_getElem? secret g hs hg i
  rw [h] at h1
  have hgi := getElem?_of_charAt g i (by rw [hg]; exact i.isLt)
  have hnot : charAt g i ∉ unmatched secret g := by
    apply feedbackScan_gray g secret _ i (charAt g i) h1 hgi
    intro j hj hgj
    have hjlt : j < 5 := by
      by_contra hge
      rw [List.getElem?_eq_none (by rw [hg]; omega)] at hgj
      exact absurd hgj (by simp)
    have h2 := standardFeedback_getElem? secret g hs hg ⟨j, hjlt⟩
    simp only at h2
    rw [hj] at h2
    have h3 := hno ⟨j, hjlt⟩ (Option.some.inj h2).symm
    exact h3 (charAt_eq_of_getElem? g j _ hgj)
  have hsp := getElem?_of_charAt secret p (by rw [hs]; exact p.isLt)
  have hgp := getElem?_of_charAt g p (by rw [hg]; exact p.isLt)
  rw [hp] at hsp
  have heq : charAt g p = charAt g i := by
    by_contra hne
    exact hnot (mem_unmatched secret g p _ _ hsp hgp hne)
  exact ⟨standardFeedback_of_eq secret g hs hg p (by rw [heq, hp]), heq⟩

theorem exists_index_of_mem (w : Word) (hlen : w.length = 5) (c : Char) (hc : c ∈ w) :
    ∃ p : Fin 5, charAt w p = c ∧ (p : Nat) = w.indexOf c := by
  have hlt : w.indexOf c < w.length := List.indexOf_lt_length.mpr hc
  have h5 : w.indexOf c < 5 := by omega
  refine ⟨⟨w.indexOf c, h5⟩, ?_, rfl⟩
  apply charAt_eq_of_getElem?
  simp only
  rw [List.getElem?_eq_getElem hlt, List.getElem_indexOf hlt]

theorem placementsSound_recorded (secret g : Word) (st : State) (hs : secret.length = 5)
    (hg : g.length = 5) (hinv : placementsSound secret st.greens) :
    placementsSound secret (recorded st g (standardFeedback secret g)).1 := by
  intro c
  unfold recorded
  constructor
  · intro hne
    rw [ne_eq, lookAhead_greens_eq_none] at hne
    by_cases h : st.greens c = none
    · have hex : ∃ i, standardFeedback secret g i = GREEN ∧ charAt g i = c := by
        by_contra hno
        exact hne ⟨h, fun i hi => hno ⟨i, hi⟩⟩
      obtain ⟨i, hi1, hi2⟩ := hex
      exact ⟨((i : Nat) : Int), (mem_lookAhead_greens _ _ _ _ _).mpr (Or.inr ⟨i, hi1, hi2, rfl⟩)⟩
    · obtain ⟨p, hp⟩ := (hinv c).1 h
      exact ⟨p, (mem_lookAhead_greens _ _ _ _ _).mpr (Or.inl hp)⟩
  · intro p hp
    rcases (mem_lookAhead_greens _ _ _ _ _).mp hp with h | ⟨i, hi1, hi2, hi3⟩
    · exact (hinv c).2 p h
    · exact ⟨i, hi3, by rw [← standardFeedback_green secret g hs hg i hi1]; exact hi2⟩

theorem secret_survives_round (secret g : Word) (st : State) (hs : secret.length = 5)
    (hg : g.length = 5) (hne : g ≠ secret) (hin : secret ∈ st.possibleWords)
    (hinv : placementsSound secret st.greens) :
    secret ∈ (processRound st g (standardFeedback secret g) true).possibleWords ∧
      placementsSound secret (processRound st g (standardFeedback secret g) true).greens := by
  have hG := placementsSound_recorded secret g st hs hg hinv
  refine ⟨?_, by rw [processRound_same]; exact hG⟩
  rw [mem_processRound]
  refine ⟨hin, fun e => hne e.symm, ?_⟩
  intro i
  cases hres : standardFeedback secret g i with
  | GREEN =>
    exact (survives_green _ _ g _ i secret hs hres).mpr
      (standardFeedback_green secret g hs hg i hres).symm
  | YELLOW =>
    have h := standardFeedback_yellow secret g hs hg i hres
    exact (survives_yellow _ _ g _ i secret hs hres).mpr ⟨fun e => h.1 e.symm, h.2⟩
  | ERROR => exact survives_error _ _ g _ i secret hres
  | GRAY =>
    by_cases hY : charAt g i ∈ (recorded st g (standardFeedback secret g)).2
    · exact survives_gray_present _ _ g _ i secret hres hY
    · have hno : ∀ j, standardFeedback secret g j = YELLOW → charAt g j ≠ charAt g i := by
        intro j hj e
        apply hY
        unfold recorded
        exact (mem_lookAhead_yellows _ _ _ _).mpr (Or.inr ⟨j, hj, e⟩)
      have hgr := standardFeedback_gray secret g hs hg i hres hno
      by_cases hN : (recorded st g (standardFeedback secret g)).1 (charAt g i) = none
      · apply (survives_gray_unknown _ _ g _ i secret hs hres hN hY).mpr
        intro hmem
        obtain ⟨p, hp, _⟩ := exists_index_of_mem secret hs _ hmem
        have h2 := hgr p hp
        unfold recorded at hN
        exact ((lookAhead_greens_eq_none _ _ _ _).mp hN).2 p h2
      · apply (survives_gray_placed _ _ g _ i secret hres hN hY).mpr
        obtain ⟨q, hq⟩ := (hG (charAt g i)).1 hN
        obtain ⟨k, _, hk⟩ := (hG (charAt g i)).2 q hq
        have hmem : charAt g i ∈ secret := by
          rw [← hk]; exact charAt_mem secret k (by rw [hs]; exact k.isLt)
        obtain ⟨p, hp, hpidx⟩ := exists_index_of_mem secret hs _ hmem
        have h2 := hgr p hp
        rw [find_zero_of_mem secret _ hmem, ← hpidx, static_cast_int_small p (by omega)]
        unfold recorded
        exact (mem_lookAhead_greens _ _ _ _ _).mpr (Or.inr ⟨p, h2.1, h2.2, rfl⟩)

theorem secret_survives_rounds (secret : Word) (guesses : List Word) (st : State)
    (hs : secret.length = 5) (hg : ∀ g ∈ guesses, g.length = 5 ∧ g ≠ secret)
    (hin : secret ∈ st.possibleWords) (hinv : placementsSound secret st.greens) :
    secret ∈ (runRounds st
      (guesses.map (fun g => (g, standardFeedback secret g)))).possibleWords := by
  induction guesses generalizing st with
  | nil => exact hin
  | cons g gs ih =>
    have h := secret_survives_round secret g st hs (hg g (List.mem_cons_self g gs)).1
      (hg g (List.mem_cons_self g gs)).2 hin hinv
    exact ih (processRound st g (standardFeedback secret g) true)
      (fun x hx => hg x (List.mem_cons_of_mem g hx)) h.1 h.2

theorem placementsSound_fresh (secret : Word) : placementsSound secret (fun _ => none) := by
  intro c
  simp [greensAt]

/-- C1. For every five-letter secret, every fresh puzzle state whose working set
contains the secret, and every sequence of five-letter guesses none of which is the
secret, each answered with the standard feedback against the secret: after every
accepted round (after the first `n` rounds, for every `n`) the secret is still in the
working set. -/
theorem secret_never_eliminated (secret : Word) (possibleWords backup : List Word)
    (letterFreqs : IntMap Char) (guesses : List Word) (hs : secret.length = 5)
    (hin : secret ∈ possibleWords) (hg : ∀ g ∈ guesses, g.length = 5 ∧ g ≠ secret) :
    ∀ n : Nat, secret ∈ (runRounds (freshState possibleWords backup letterFreqs)
      ((guesses.take n).map (fun g => (g, standardFeedback secret g)))).possibleWords := by
  intro n
  exact secret_survives_rounds secret (guesses.take n) _ hs
    (fun g hgm => hg g (List.mem_of_mem_take hgm)) hin (placementsSound_fresh secret)

/-- Witness for C1: SEEDY against the secret SCENT gives Correct, Absent, Correct,
Absent, Absent, and SCENT stays in the working set. -/
theorem secret_never_eliminated_witness :
    (List.map (standardFeedback SCENT SEEDY) positions = [GREEN, GRAY, GREEN, GRAY, GRAY]) ∧
      SCENT ∈ (runRounds (freshState scentLexicon scentLexicon (letterFrequencies scentLexicon))
        (([SEEDY].take 1).map (fun g => (g, standardFeedback SCENT g)))).possibleWords :=
  ⟨by decide,
    secret_never_eliminated SCENT scentLexicon scentLexicon (letterFrequencies scentLexicon)
      [SEEDY] (by decide) (by decide) (by decide) 1⟩

/-- C3 fails on the code. SEEDY against the secret SCENT: E at index 1 is Absent, E has
the recorded placement 2 and is not in KnownPresent, yet SHEEP, with E at indices 2 and
3, is still in the working set after the round: the test looks at the first E only. -/
theorem absent_placed_letter_keeps_second_occurrence :
    standardFeedback SCENT SEEDY 1 = GRAY ∧
      charAt SEEDY 1 = 'E' ∧
      (recorded (freshState scentLexicon scentLexicon (letterFrequencies scentLexicon))
        SEEDY (standardFeedback SCENT SEEDY)).1 'E' = some [2] ∧
      'E' ∉ (recorded (freshState scentLexicon scentLexicon (letterFrequencies scentLexicon))
        SEEDY (standardFeedback SCENT SEEDY)).2 ∧
      SHEEP ∈ (processRound (freshState scentLexicon scentLexicon (letterFrequencies scentLexicon))
        SEEDY (standardFeedback SCENT SEEDY) true).possibleWords ∧
      charAt SHEEP 3 = 'E' ∧ (3 : Int) ∉ [(2 : Int)] := by
  decide

/-! ## The claims on the Round Controller -/

/-- C14. For every state, guess and feedback, after a round in which the oracle's
count of completed puzzles changed, the working set is the master (backup) word set,
so the two have the same size, KnownPlacements has no key, KnownPresent is empty and
RoundCounter is 0; the master itself is untouched. -/
theorem reset_restores_lexicon (st : State) (g : Word) (res : Feedback) :
    (processRound st g res false).possibleWords = st.possibleWordsBackup ∧
      (processRound st g res false).possibleWords.length = st.possibleWordsBackup.length ∧
      (∀ c, (processRound st g res false).greens c = none) ∧
      (processRound st g res false).yellows = [] ∧
      (processRound st g res false).numGuesses = 0 ∧
      (processRound st g res false).possibleWordsBackup = st.possibleWordsBackup := by
  simp [processRound]

theorem processRound_sublist (st : State) (g : Word) (res : Feedback) :
    (processRound st g res true).possibleWords.Sublist st.possibleWords := by
  rw [processRound_same]
  exact (List.filter_sublist _).trans (List.filter_sublist _)

theorem runRounds_sublist (st : State) (rounds : List (Word × Feedback)) :
    (runRounds st rounds).possibleWords.Sublist st.possibleWords := by
  induction rounds generalizing st with
  | nil => exact List.Sublist.refl _
  | cons r rs ih =>
    exact (ih (processRound st r.1 r.2 true)).trans (processRound_sublist st r.1 r.2)

/-- C15. For every state, guess and feedback, the working set after an accepted round
is a part of the working set before it (every word of it was there, in the same
order), so its size is not larger; the same holds across any run of accepted rounds. -/
theorem working_set_never_grows (st : State) (g : Word) (res : Feedback) :
    (∀ w ∈ (processRound st g res true).possibleWords, w ∈ st.possibleWords) ∧
      (processRound st g res true).possibleWords.Sublist st.possibleWords ∧
      (processRound st g res true).possibleWords.length ≤ st.possibleWords.length ∧
      ∀ rounds : List (Word × Feedback),
        (runRounds st rounds).possibleWords.length ≤ st.possibleWords.length :=
  ⟨fun w hw => processRound_subset st g res w hw, processRound_sublist st g res,
    (processRound_sublist st g res).length_le, fun rounds => (runRounds_sublist st rounds).length_le⟩

/-- C17. For every accepted round taken while RoundCounter is at most 3 (the opening
rounds 0, 1, 2, 3): KnownPresent after the round holds exactly the letters it held
before and the letters marked Present in this round, and every recorded placement is
still recorded. -/
theorem opening_keeps_knowledge (st : State) (g : Word) (res : Feedback)
    (h : st.numGuesses ≤ 3) :
    (∀ c, c ∈ (processRound st g res true).yellows ↔
        c ∈ st.yellows ∨ ∃ i, res i = YELLOW ∧ charAt g i = c) ∧
      (∀ c p, p ∈ greensAt st.greens c → p ∈ greensAt (processRound st g res true).greens c) := by
  rw [processRound_same]
  have hn : ¬ st.numGuesses > 3 := by omega
  constructor
  · intro c
    simp only [recorded, if_neg hn]
    exact mem_lookAhead_yellows g res _ c
  · intro c p hp
    simp only [recorded]
    exact (mem_lookAhead_greens g res _ c p).mpr (Or.inl hp)

/-- Witness for C17: the second scripted round (BROWN, all Absent) after FADES with A
Present and E Correct: A is kept in KnownPresent and index 3 stays recorded for E. -/
theorem opening_keeps_knowledge_witness :
    (processRound (freshState scriptedLexicon scriptedLexicon (letterFrequencies scriptedLexicon))
        FADES (feedbackOf GRAY YELLOW GRAY GREEN GRAY) true).numGuesses ≤ 3 ∧
      (runRounds (freshState scriptedLexicon scriptedLexicon (letterFrequencies scriptedLexicon))
        [(FADES, feedbackOf GRAY YELLOW GRAY GREEN GRAY)]).yellows = ['A'] ∧
      (runRounds (freshState scriptedLexicon scriptedLexicon (letterFrequencies scriptedLexicon))
        [(FADES, feedbackOf GRAY YELLOW GRAY GREEN GRAY), (BROWN, allGray)]).yellows = ['A'] ∧
      ((3 : Int) ∈ greensAt (processRound
          (freshState scriptedLexicon scriptedLexicon (letterFrequencies scriptedLexicon))
          FADES (feedbackOf GRAY YELLOW GRAY GREEN GRAY) true).greens 'E' →
        (3 : Int) ∈ greensAt (processRound (processRound
          (freshState scriptedLexicon scriptedLexicon (letterFrequencies scriptedLexicon))
          FADES (feedbackOf GRAY YELLOW GRAY GREEN GRAY) true) BROWN allGray true).greens 'E') :=
  ⟨by decide, by decide, by decide,
    (opening_keeps_knowledge
      (processRound (freshState scriptedLexicon scriptedLexicon (letterFrequencies scriptedLexicon))
        FADES (feedbackOf GRAY YELLOW GRAY GREEN GRAY) true)
      BROWN allGray (by decide)).2 'E' 3⟩

/-- C20. For every accepted round taken while RoundCounter is at least 4, KnownPresent
after the round is exactly the set of the letters of the guess whose status in this
round is Present; what earlier rounds had recorded is dropped. -/
theorem solving_rebuilds_known_present (st : State) (g : Word) (res : Feedback)
    (h : 4 ≤ st.numGuesses) :
    ∀ c, c ∈ (processRound st g res true).yellows ↔ ∃ i, res i = YELLOW ∧ charAt g i = c := by
  intro c
  rw [processRound_same]
  have hn : st.numGuesses > 3 := by omega
  simp only [recorded, if_pos hn]
  rw [mem_lookAhead_yellows]
  simp

/-- Witness for C20: after the scripted opening against the secret RELAY KnownPresent is
A, E, R, L; the fifth round (guess RELAX, no letter Present) leaves it empty. -/
theorem solving_rebuilds_known_present_witness :
    4 ≤ (playRounds RELAY 4 (initialState relayLexicon)).numGuesses ∧
      (playRounds RELAY 4 (initialState relayLexicon)).yellows = ['A', 'E', 'R', 'L'] ∧
      (playRounds RELAY 5 (initialState relayLexicon)).yellows = [] ∧
      ('A' ∈ (processRound (playRounds RELAY 4 (initialState relayLexicon)) RELAX
          (standardFeedback RELAY RELAX) true).yellows ↔
        ∃ i, standardFeedback RELAY RELAX i = YELLOW ∧ charAt RELAX i = 'A') :=
  ⟨by decide, by decide, by decide,
    solving_rebuilds_known_present (playRounds RELAY 4 (initialState relayLexicon)) RELAX
      (standardFeedback RELAY RELAX) (by decide) 'A'⟩

theorem processRound_letterFreqs (st : State) (g : Word) (res : Feedback) (sameGame : Bool) :
    (processRound st g res sameGame).letterFreqs = st.letterFreqs ∧
      (processRound st g res sameGame).possibleWordsBackup = st.possibleWordsBackup := by
  cases sameGame
  · simp [processRound]
  · rw [processRound_same]
    exact ⟨rfl, rfl⟩

theorem runSteps_letterFreqs (st : State) (rounds : List (Feedback × Bool)) :
    (runSteps st rounds).letterFreqs = st.letterFreqs ∧
      (runSteps st rounds).possibleWordsBackup = st.possibleWordsBackup := by
  induction rounds generalizing st with
  | nil => exact ⟨rfl, rfl⟩
  | cons r rs ih =>
    have h1 := ih (step st r.1 r.2)
    have h2 := processRound_letterFreqs st (chooseGuess st) r.1 r.2
    exact ⟨h1.1.trans h2.1, h1.2.trans h2.2⟩

theorem chooseGuess_solving (st : State) (h : 4 ≤ st.numGuesses) :
    chooseGuess st = findBestCandidate st.possibleWords st.yellows st.letterFreqs := by
  unfold chooseGuess
  rw [if_neg (by omega), if_neg (by omega), if_neg (by omega), if_neg (by omega)]

/-- C11, as the code has it. In every Solving round (RoundCounter at least 4) of a run
of the program the guess is `findBestCandidate(W, KnownPresent, T)`, where `W` is the
working set at the start of the round and `T` is the table computed once at start-up
from the full master list; no round changes the table or the master list. -/
theorem solving_guess_uses_startup_table (fileLines : List Word)
    (rounds : List (Feedback × Bool))
    (h : 4 ≤ (runSteps (initialState fileLines) rounds).numGuesses) :
    (runSteps (initialState fileLines) rounds).possibleWordsBackup
        = (initialState fileLines).possibleWordsBackup ∧
      (runSteps (initialState fileLines) rounds).letterFreqs
        = letterFrequencies (initialState fileLines).possibleWordsBackup ∧
      chooseGuess (runSteps (initialState fileLines) rounds)
        = findBestCandidate (runSteps (initialState fileLines) rounds).possibleWords
            (runSteps (initialState fileLines) rounds).yellows
            (letterFrequencies (initialState fileLines).possibleWordsBackup) := by
  have hk := runSteps_letterFreqs (initialState fileLines) rounds
  have hinit : (initialState fileLines).letterFreqs
      = letterFrequencies (initialState fileLines).possibleWordsBackup := rfl
  refine ⟨hk.2, hk.1.trans hinit, ?_⟩
  rw [chooseGuess_solving _ h, hk.1, hinit]

/-- Witness for the amended C11: the word file RELAY, RELAX, LEARY, FIXED, MIXED and the
scripted opening against the secret RELAY; the fifth guess is RELAX. -/
theorem solving_guess_uses_startup_table_witness :
    4 ≤ (runSteps (initialState relayLexicon) relayOpening).numGuesses ∧
      chooseGuess (runSteps (initialState relayLexicon) relayOpening) = RELAX ∧
      chooseGuess (runSteps (initialState relayLexicon) relayOpening)
        = findBestCandidate (runSteps (initialState relayLexicon) relayOpening).possibleWords
            (runSteps (initialState relayLexicon) relayOpening).yellows
            (letterFrequencies (initialState relayLexicon).possibleWordsBackup) :=
  ⟨by decide, by decide,
    (solving_guess_uses_startup_table relayLexicon relayOpening (by decide)).2.2⟩

/-- C11 as stated fails: with the word file RELAY, RELAX, LEARY, FIXED, MIXED and the
secret RELAY the working set at the start of the fifth round is RELAY, RELAX, LEARY. The
controller guesses RELAX (X is in three words of the file, Y in two), while with the
table of the working set (Y in two of its words, X in one) the Selector gives RELAY,
and gives RELAX for no enumeration order of the working set. -/
theorem solving_guess_ignores_working_set_table :
    (playRounds RELAY 4 (initialState relayLexicon)).numGuesses = 4 ∧
      (playRounds RELAY 4 (initialState relayLexicon)).possibleWords = [RELAY, RELAX, LEARY] ∧
      chooseGuess (playRounds RELAY 4 (initialState relayLexicon)) = RELAX ∧
      findBestCandidate (playRounds RELAY 4 (initialState relayLexicon)).possibleWords
          (playRounds RELAY 4 (initialState relayLexicon)).yellows
          (letterFrequencies (playRounds RELAY 4 (initialState relayLexicon)).possibleWords)
        = RELAY ∧
      (∀ W ∈ relayOrders,
        W.Perm (playRounds RELAY 4 (initialState relayLexicon)).possibleWords ∧
          findBestCandidate W (playRounds RELAY 4 (initialState relayLexicon)).yellows
            (letterFrequencies W) ≠ chooseGuess (playRounds RELAY 4 (initialState relayLexicon))) := by
  decide

theorem findBestCandidate_nil (ys : List Char) (lf : IntMap Char) :
    findBestCandidate [] ys lf = [] := by
  simp [findBestCandidate_unfold, collect, bestCandidate, bestCandidateLoop]

/-- C13, as the code has it. When the working set is empty at the start of a Solving
round, `findBestCandidate` returns the empty string and the controller takes it as its
guess; no error is reported. -/
theorem empty_working_set_gives_empty_guess (st : State) (hW : st.possibleWords = [])
    (h : 4 ≤ st.numGuesses) :
    chooseGuess st = [] ∧ ∀ (ys : List Char) (lf : IntMap Char), findBestCandidate [] ys lf = [] := by
  refine ⟨?_, findBestCandidate_nil⟩
  rw [chooseGuess_solving st h, hW]
  exact findBestCandidate_nil _ _

/-- Witness for the amended C13: the word file holds CRANE only and the secret is
SCENT; after the scripted opening the working set is empty. -/
theorem empty_working_set_gives_empty_guess_witness :
    (playRounds SCENT 4 (initialState [CRANE])).possibleWords = [] ∧
      4 ≤ (playRounds SCENT 4 (initialState [CRANE])).numGuesses ∧
      chooseGuess (playRounds SCENT 4 (initialState [CRANE])) = [] :=
  ⟨by decide, by decide,
    (empty_working_set_gives_empty_guess (playRounds SCENT 4 (initialState [CRANE]))
      (by decide) (by decide)).1⟩

/-- C13 as stated fails: with the word file CRANE and the secret SCENT the working set
is empty at the start of the fifth round; the controller's guess is the empty string,
and the round is played with it like any other (RoundCounter goes to 5). -/
theorem empty_working_set_is_not_an_error :
    (playRounds SCENT 4 (initialState [CRANE])).possibleWords = [] ∧
      (playRounds SCENT 4 (initialState [CRANE])).numGuesses = 4 ∧
      chooseGuess (playRounds SCENT 4 (initialState [CRANE])) = "".toList ∧
      (playRounds SCENT 5 (initialState [CRANE])).numGuesses = 5 := by
  decide

/-! ## More on the Selector -/

theorem collect_eq_append_filter (keep : Word → Bool) (ws acc : List Word) (hnd : ws.Nodup)
    (hdis : ∀ w ∈ ws, w ∉ acc) : collect keep ws acc = acc ++ ws.filter keep := by
  unfold collect
  induction ws generalizing acc with
  | nil => simp
  | cons x xs ih =>
    have hx : x ∉ xs := (List.nodup_cons.mp hnd).1
    have hxs : xs.Nodup := (List.nodup_cons.mp hnd).2
    have hxa : x ∉ acc := hdis x (List.mem_cons_self x xs)
    simp only [List.foldl_cons]
    by_cases hk : keep x = true
    · rw [if_pos hk, List.filter_cons_of_pos hk]
      have hins : setInsert x acc = acc ++ [x] := by simp [setInsert, hxa]
      rw [hins, ih (acc ++ [x]) hxs]
      · simp
      · intro w hw hmem
        rcases List.mem_append.mp hmem with h | h
        · exact hdis w (List.mem_cons_of_mem x hw) h
        · rw [List.mem_singleton] at h
          exact hx (h ▸ hw)
    · rw [if_neg hk, List.filter_cons_of_neg hk]
      exact ih acc hxs (fun w hw => hdis w (List.mem_cons_of_mem x hw))

theorem collect_unique_eq_tier3 (ws : List Word) (hnd : ws.Nodup)
    (hlen : ∀ w ∈ ws, w.length = 5) :
    collect (fun word => hasUniqueLetters word) ws [] = tier3 ws := by
  rw [collect_eq_append_filter _ ws [] hnd (fun w _ => List.not_mem_nil w), List.nil_append]
  unfold tier3
  apply List.filter_congr
  intro w hw
  exact hasUniqueLetters_eq_fiveDistinct w (hlen w hw)

theorem mem_chosenTier_congr (ws1 ws2 : List Word) (ys : List Char)
    (h : ∀ w, w ∈ ws1 ↔ w ∈ ws2) (w : Word) :
    w ∈ chosenTier ws1 ys ↔ w ∈ chosenTier ws2 ys := by
  have m1 : ∀ v, v ∈ tier1 ws1 ys ↔ v ∈ tier1 ws2 ys := fun v => by
    simp only [tier1, List.mem_filter, h v]
  have m2 : ∀ v, v ∈ tier2 ws1 ys ↔ v ∈ tier2 ws2 ys := fun v => by
    simp only [tier2, List.mem_filter, h v]
  have m3 : ∀ v, v ∈ tier3 ws1 ↔ v ∈ tier3 ws2 := fun v => by
    simp only [tier3, List.mem_filter, h v]
  have e1 := eq_nil_iff_of_mem_iff m1
  have e2 := eq_nil_iff_of_mem_iff m2
  have e3 := eq_nil_iff_of_mem_iff m3
  unfold chosenTier
  by_cases h1 : tier1 ws1 ys = []
  · rw [if_neg (not_not.mpr h1), if_neg (not_not.mpr (e1.mp h1))]
    by_cases h2 : tier2 ws1 ys = []
    · rw [if_neg (not_not.mpr h2), if_neg (not_not.mpr (e2.mp h2))]
      by_cases h3 : tier3 ws1 = []
      · rw [if_neg (not_not.mpr h3), if_neg (not_not.mpr (e3.mp h3))]
        exact h w
      · rw [if_pos h3, if_pos (fun e => h3 (e3.mpr e))]
        exact m3 w
    · rw [if_pos h2, if_pos (fun e => h2 (e2.mpr e))]
      exact m2 w
  · rw [if_pos h1, if_pos (fun e => h1 (e1.mpr e))]
    exact m1 w

/-! ## Progress of the working set -/

theorem processRound_length_lt (st : State) (g : Word) (res : Feedback) (w : Word)
    (hw : w ∈ st.possibleWords) (hout : w ∉ (processRound st g res true).possibleWords) :
    (processRound st g res true).possibleWords.length < st.possibleWords.length := by
  have hsub := processRound_sublist st g res
  rcases Nat.lt_or_ge (processRound st g res true).possibleWords.length
    st.possibleWords.length with h | h
  · exact h
  · have heq := hsub.eq_of_length_le h
    rw [heq] at hout
    exact absurd hw hout

/-- C16 as stated fails: the word file holds CRANE only and the secret is CRANE; the
first round (guess FADES) reports A and E Present, and the working set is the same
after the round. -/
theorem informative_feedback_without_shrink :
    chooseGuess (initialState [CRANE]) = FADES ∧
      standardFeedback CRANE FADES 1 = YELLOW ∧
      standardFeedback CRANE FADES 3 = YELLOW ∧
      (step (initialState [CRANE]) (standardFeedback CRANE FADES) true).possibleWords
        = (initialState [CRANE]).possibleWords ∧
      ¬ ((step (initialState [CRANE]) (standardFeedback CRANE FADES) true).possibleWords.length
        < (initialState [CRANE]).possibleWords.length) := by
  decide

theorem letterFrequencies_get (ws : List Word) (c : Char) (hc : c ∈ alphabet) :
    mapGet (letterFrequencies ws) c
      = ((ws.countP (fun w => decide (find w c 0 ≠ npos)) : Nat) : Int) := by
  unfold letterFrequencies
  simp only [letterFreqs_init]
  rw [letterFrequencies_loop_get ws _ c hc, mapGet_init_zero, zero_add]

theorem letterFrequencies_pos (M : List Word) (w : Word) (c : Char) (hw : w ∈ M)
    (hcw : c ∈ w) (hc : c ∈ alphabet) (hlen : w.length < 2 ^ 64) :
    0 < mapGet (letterFrequencies M) c := by
  rw [letterFrequencies_get M c hc]
  have hpos : 0 < M.countP (fun w => decide (find w c 0 ≠ npos)) := by
    rw [List.countP_pos_iff]
    refine ⟨w, hw, ?_⟩
    simp only [decide_eq_true_eq]
    intro hn
    exact (find_zero_eq_npos_iff w c hlen).mp hn hcw
  exact_mod_cast hpos

theorem score_pos (M : List Word) (cands : List Word) (w : Word) (hwc : w ∈ cands)
    (hw : w ∈ M) (hne : w ≠ []) (hlen : w.length < 2 ^ 64) (hletters : ∀ c ∈ w, c ∈ alphabet) :
    0 < mapGet (wordRankings cands (letterFrequencies M)) w := by
  rw [wordRankings_get, if_pos hwc]
  apply List.sum_pos
  · intro x hx
    obtain ⟨c, hc, rfl⟩ := List.mem_map.mp hx
    exact letterFrequencies_pos M w c hw hc (hletters c hc) hlen
  · intro h
    exact hne (List.map_eq_nil_iff.mp h)

theorem findBestCandidate_candidates (ws : List Word) (ys : List Char) (lf : IntMap Char) :
    ∃ cands : List Word,
      findBestCandidate ws ys lf = bestCandidate cands (wordRankings cands lf) ∧
        (∀ w ∈ cands, w ∈ ws) ∧ (ws ≠ [] → cands ≠ []) := by
  have hsub : ∀ (keep : Word → Bool) (w : Word), w ∈ collect keep ws [] → w ∈ ws := by
    intro keep w hw
    rcases (mem_collect keep ws [] w).mp hw with h | h
    · exact absurd h (List.not_mem_nil w)
    · exact h.1
  rw [findBestCandidate_unfold]
  simp only [isEmpty_eq_true_iff]
  by_cases h1 : collect (fun word => hasUniqueLetters word && hasAllYellows word ys) ws [] = []
  · rw [if_neg (not_not.mpr h1), h1]
    by_cases h2 : collect (fun word => hasAllYellows word ys) ws [] = []
    · rw [if_neg (not_not.mpr h2), h2]
      by_cases h3 : collect (fun word => hasUniqueLetters word) ws [] = []
      · rw [if_neg (not_not.mpr h3)]
        exact ⟨ws, rfl, fun w hw => hw, fun h => h⟩
      · rw [if_pos h3]
        exact ⟨_, rfl, hsub _, fun _ => h3⟩
    · rw [if_pos h2]
      exact ⟨_, rfl, hsub _, fun _ => h2⟩
  · rw [if_pos h1]
    exact ⟨_, rfl, hsub _, fun _ => h1⟩

/-- C18. For every non-empty working set `W` that is part of the master list `M` and
whose words are non-empty strings of letters A..Z, and every KnownPresent: the Solving
guess `findBestCandidate(W, KnownPresent, letterFrequencies(M))` is a member of `W`, and
after an accepted round played with it from a state whose working set is `W` the guess
is no longer in the working set, which is strictly smaller than `W`. -/
theorem solving_guess_makes_progress (W M : List Word) (ys : List Char) (hne : W ≠ [])
    (hsub : ∀ w ∈ W, w ∈ M)
    (hwf : ∀ w ∈ W, w ≠ [] ∧ w.length < 2 ^ 64 ∧
      ∀ c ∈ w, c ∈ "ABCDEFGHIJKLMNOPQRSTUVWXYZ".toList) :
    findBestCandidate W ys (letterFrequencies M) ∈ W ∧
      ∀ (st : State) (res : Feedback), st.possibleWords = W →
        findBestCandidate W ys (letterFrequencies M)
            ∉ (processRound st (findBestCandidate W ys (letterFrequencies M)) res true).possibleWords ∧
          (processRound st (findBestCandidate W ys (letterFrequencies M)) res true).possibleWords.length
            < W.length := by
  obtain ⟨cands, heq, hcs, hcne⟩ := findBestCandidate_candidates W ys (letterFrequencies M)
  obtain ⟨w0, hw0⟩ := List.exists_mem_of_ne_nil _ (hcne hne)
  have hw0W := hcs w0 hw0
  have hbest := (bestCandidate_of_positive cands (wordRankings cands (letterFrequencies M))
    ⟨w0, hw0, score_pos M cands w0 hw0 (hsub w0 hw0W) (hwf w0 hw0W).1 (hwf w0 hw0W).2.1
      (fun c hc => by rw [alphabet_eq]; exact (hwf w0 hw0W).2.2 c hc)⟩).1
  rw [← heq] at hbest
  have hin := hcs _ hbest
  refine ⟨hin, ?_⟩
  intro st res hst
  have hout : findBestCandidate W ys (letterFrequencies M)
      ∉ (processRound st (findBestCandidate W ys (letterFrequencies M)) res true).possibleWords :=
    fun hmem => ((mem_processRound st _ res _).mp hmem).2.1 rfl
  have hlt := processRound_length_lt st _ res _ (by rw [hst]; exact hin) hout
  rw [hst] at hlt
  exact ⟨hout, hlt⟩

/-- Witness for C18: the working set RELAY, RELAX, LEARY reached after the scripted
opening against the secret RELAY, with the table of the whole word file. -/
theorem solving_guess_makes_progress_witness :
    findBestCandidate [RELAY, RELAX, LEARY] ['A', 'E', 'R', 'L'] (letterFrequencies relayLexicon)
        ∈ [RELAY, RELAX, LEARY] ∧
      (processRound (playRounds RELAY 4 (initialState relayLexicon))
          (findBestCandidate [RELAY, RELAX, LEARY] ['A', 'E', 'R', 'L']
            (letterFrequencies relayLexicon))
          (standardFeedback RELAY RELAX) true).possibleWords.length
        < [RELAY, RELAX, LEARY].length :=
  ⟨(solving_guess_makes_progress [RELAY, RELAX, LEARY] relayLexicon ['A', 'E', 'R', 'L']
      (by decide) (by decide) (by decide)).1,
    ((solving_guess_makes_progress [RELAY, RELAX, LEARY] relayLexicon ['A', 'E', 'R', 'L']
      (by decide) (by decide) (by decide)).2
      (playRounds RELAY 4 (initialState relayLexicon)) (standardFeedback RELAY RELAX)
      (by decide)).2⟩

/-! ## The Selector for every scan order of the candidates -/

theorem bestCandidateLoop_congr (r1 r2 : IntMap Word) (h : ∀ w, mapGet r1 w = mapGet r2 w)
    (L : List Word) (acc : Int × Word) :
    bestCandidateLoop r1 acc L = bestCandidateLoop r2 acc L := by
  unfold bestCandidateLoop
  induction L generalizing acc with
  | nil => rfl
  | cons x xs ih =>
    simp only [List.foldl_cons, h x]
    exact ih _

theorem bestCandidate_congr (r1 r2 : IntMap Word) (h : ∀ w, mapGet r1 w = mapGet r2 w)
    (L : List Word) : bestCandidate L r1 = bestCandidate L r2 := by
  unfold bestCandidate
  rw [bestCandidateLoop_congr r1 r2 h]

theorem bestCandidateLoop_first_max (ranks : IntMap Word) (L : List Word) (acc : Int × Word) :
    (bestCandidateLoop ranks acc L = acc ∧ ∀ w ∈ L, mapGet ranks w ≤ acc.1) ∨
      ∃ pre b post, L = pre ++ b :: post ∧
        bestCandidateLoop ranks acc L = (mapGet ranks b, b) ∧ acc.1 < mapGet ranks b ∧
        (∀ w ∈ pre, mapGet ranks w < mapGet ranks b) ∧
        (∀ w ∈ post, mapGet ranks w ≤ mapGet ranks b) := by
  unfold bestCandidateLoop
  induction L generalizing acc with
  | nil => exact Or.inl ⟨rfl, fun w hw => absurd hw (List.not_mem_nil w)⟩
  | cons x xs ih =>
    simp only [List.foldl_cons]
    by_cases hx : mapGet ranks x > acc.1
    · rw [if_pos hx]
      right
      rcases ih (mapGet ranks x, x) with ⟨h1, h2⟩ | ⟨pre, b, post, h1, h2, h3, h4, h5⟩
      · exact ⟨[], x, xs, rfl, h1, hx, fun w hw => absurd hw (List.not_mem_nil w), h2⟩
      · simp only at h3
        refine ⟨x :: pre, b, post, by rw [h1]; rfl, h2, by omega, ?_, h5⟩
        intro w hw
        rcases List.mem_cons.mp hw with rfl | hw
        · exact h3
        · exact h4 w hw
    · rw [if_neg hx]
      rcases ih acc with ⟨h1, h2⟩ | ⟨pre, b, post, h1, h2, h3, h4, h5⟩
      · left
        refine ⟨h1, ?_⟩
        intro w hw
        rcases List.mem_cons.mp hw with rfl | hw
        · omega
        · exact h2 w hw
      · right
        refine ⟨x :: pre, b, post, by rw [h1]; rfl, h2, h3, ?_, h5⟩
        intro w hw
        rcases List.mem_cons.mp hw with rfl | hw
        · omega
        · exact h4 w hw

theorem bestCandidate_first_max (L : List Word) (ranks : IntMap Word)
    (hpos : ∃ w ∈ L, 0 < mapGet ranks w) :
    ∃ pre post, L = pre ++ bestCandidate L ranks :: post ∧
      (∀ w ∈ pre, mapGet ranks w < mapGet ranks (bestCandidate L ranks)) ∧
      (∀ w ∈ post, mapGet ranks w ≤ mapGet ranks (bestCandidate L ranks)) := by
  obtain ⟨w0, hw0, hpos0⟩ := hpos
  unfold bestCandidate
  rcases bestCandidateLoop_first_max ranks L (0, []) with ⟨_, h2⟩ | ⟨pre, b, post, h1, h2, _, h4, h5⟩
  · have := h2 w0 hw0
    simp only at this
    omega
  · rw [h2]
    exact ⟨pre, post, h1, h4, h5⟩

theorem findBestCandidateIn_tier (scan : List Word → List Word) (ws : List Word)
    (ys : List Char) (lf : IntMap Char) (hlen : ∀ w ∈ ws, w.length = 5) :
    ∃ cands : List Word,
      findBestCandidateIn scan ws ys lf = bestCandidate (scan cands) (wordRankings cands lf) ∧
        ∀ w, w ∈ cands ↔ w ∈ chosenTier ws ys := by
  unfold findBestCandidateIn
  simp only [isEmpty_eq_true_iff]
  have m3 := collect_unique_mem ws hlen
  have e3 := eq_nil_iff_of_mem_iff m3
  by_cases hys : ys = []
  · subst hys
    have c1 : collect (fun word => hasUniqueLetters word && hasAllYellows word []) ws [] = [] :=
      collect_nil_of_no_yellows _ ws (fun w => by simp [hasAllYellows])
    have c2 : collect (fun word => hasAllYellows word []) ws [] = [] :=
      collect_nil_of_no_yellows _ ws (fun w => by simp [hasAllYellows])
    rw [c1]
    simp only [not_true_eq_false, if_false]
    rw [c2]
    simp only [not_true_eq_false, if_false]
    rw [chosenTier_nil]
    by_cases h3 : collect (fun word => hasUniqueLetters word) ws [] = []
    · rw [if_neg (not_not.mpr h3), if_neg (not_not.mpr (e3.mp h3))]
      exact ⟨ws, rfl, fun w => Iff.rfl⟩
    · rw [if_pos h3, if_pos (fun h => h3 (e3.mpr h))]
      exact ⟨_, rfl, m3⟩
  · have m1 := collect_both_mem ws ys hlen hys
    have m2 := collect_yellows_mem ws ys hlen hys
    have e1 := eq_nil_iff_of_mem_iff m1
    have e2 := eq_nil_iff_of_mem_iff m2
    unfold chosenTier
    by_cases h1 : collect (fun word => hasUniqueLetters word && hasAllYellows word ys) ws [] = []
    · rw [if_neg (not_not.mpr h1), if_neg (not_not.mpr (e1.mp h1)), h1]
      by_cases h2 : collect (fun word => hasAllYellows word ys) ws [] = []
      · rw [if_neg (not_not.mpr h2), if_neg (not_not.mpr (e2.mp h2)), h2]
        by_cases h3 : collect (fun word => hasUniqueLetters word) ws [] = []
        · rw [if_neg (not_not.mpr h3), if_neg (not_not.mpr (e3.mp h3))]
          exact ⟨ws, rfl, fun w => Iff.rfl⟩
        · rw [if_pos h3, if_pos (fun h => h3 (e3.mpr h))]
          exact ⟨_, rfl, m3⟩
      · rw [if_pos h2, if_pos (fun h => h2 (e2.mpr h))]
        exact ⟨_, rfl, m2⟩
    · rw [if_pos h1, if_pos (fun h => h1 (e1.mpr h))]
      exact ⟨_, rfl, m1⟩

theorem findBestCandidateIn_of_unique_max (scan : List Word → List Word) (ws : List Word)
    (ys : List Char) (lf : IntMap Char) (hscan : ∀ l, (scan l).Perm l)
    (hlen : ∀ w ∈ ws, w.length = 5) (b : Word) (hb : b ∈ chosenTier ws ys)
    (hpos : 0 < mapGet (wordRankings (chosenTier ws ys) lf) b)
    (huniq : ∀ w ∈ chosenTier ws ys, w ≠ b →
      mapGet (wordRankings (chosenTier ws ys) lf) w
        < mapGet (wordRankings (chosenTier ws ys) lf) b) :
    findBestCandidateIn scan ws ys lf = b := by
  obtain ⟨cands, heq, hmem⟩ := findBestCandidateIn_tier scan ws ys lf hlen
  have hsc : ∀ w, w ∈ scan cands ↔ w ∈ cands := fun w => (hscan cands).mem_iff
  have hbest := bestCandidate_of_positive (scan cands) (wordRankings cands lf)
    ⟨b, (hsc b).mpr ((hmem b).mpr hb), by
      rw [wordRankings_get_congr cands (chosenTier ws ys) lf hmem]; exact hpos⟩
  rw [← heq] at hbest
  by_contra hne
  have h1 := huniq _ ((hmem _).mp ((hsc _).mp hbest.1)) hne
  have h2 := hbest.2 b ((hsc b).mpr ((hmem b).mpr hb))
  rw [wordRankings_get_congr cands (chosenTier ws ys) lf hmem,
    wordRankings_get_congr cands (chosenTier ws ys) lf hmem] at h2
  omega

/-- C12. For every working set (a duplicate-free enumeration) of five-letter words,
every frequency table and every order in which the candidates are scanned:
`findBestCandidate` with an empty KnownPresent is `bestCandidate`, with `wordRankings`
of the table, over an enumeration of the words with five mutually distinct letters when
there is one, and over an enumeration of the whole working set otherwise; when one
word of that set has a positive score greater than all others it is the result. That
set of words is tier 1 read with "contains every letter of the empty set" as true. -/
theorem empty_known_present_selects_tier3 (scan : List Word → List Word) (ws : List Word)
    (lf : IntMap Char) (hscan : ∀ l, (scan l).Perm l) (hnd : ws.Nodup)
    (hlen : ∀ w ∈ ws, w.length = 5) :
    tier1 ws [] = tier3 ws ∧
      (∃ cands : List Word,
        cands.Perm (if tier3 ws ≠ [] then tier3 ws else ws) ∧
          findBestCandidateIn scan ws [] lf = bestCandidate cands (wordRankings cands lf)) ∧
      (∀ b ∈ (if tier3 ws ≠ [] then tier3 ws else ws),
        0 < mapGet (wordRankings (if tier3 ws ≠ [] then tier3 ws else ws) lf) b →
        (∀ w ∈ (if tier3 ws ≠ [] then tier3 ws else ws), w ≠ b →
          mapGet (wordRankings (if tier3 ws ≠ [] then tier3 ws else ws) lf) w
            < mapGet (wordRankings (if tier3 ws ≠ [] then tier3 ws else ws) lf) b) →
        findBestCandidateIn scan ws [] lf = b) := by
  refine ⟨tier1_nil ws, ?_, ?_⟩
  · have hcongr : ∀ T : List Word,
        bestCandidate (scan T) (wordRankings T lf)
          = bestCandidate (scan T) (wordRankings (scan T) lf) := fun T =>
      bestCandidate_congr _ _
        (wordRankings_get_congr T (scan T) lf (fun w => (hscan T).mem_iff.symm)) (scan T)
    unfold findBestCandidateIn
    simp only [isEmpty_eq_true_iff]
    have c1 : collect (fun word => hasUniqueLetters word && hasAllYellows word []) ws [] = [] :=
      collect_nil_of_no_yellows _ ws (fun w => by simp [hasAllYellows])
    have c2 : collect (fun word => hasAllYellows word []) ws [] = [] :=
      collect_nil_of_no_yellows _ ws (fun w => by simp [hasAllYellows])
    rw [c1]
    simp only [not_true_eq_false, if_false]
    rw [c2]
    simp only [not_true_eq_false, if_false]
    rw [collect_unique_eq_tier3 ws hnd hlen]
    by_cases h3 : tier3 ws = []
    · rw [if_neg (not_not.mpr h3), if_neg (not_not.mpr h3)]
      exact ⟨scan ws, hscan ws, hcongr ws⟩
    · rw [if_pos h3, if_pos h3]
      exact ⟨scan (tier3 ws), hscan (tier3 ws), hcongr (tier3 ws)⟩
  · rw [← chosenTier_nil]
    intro b hb hpos huniq
    exact findBestCandidateIn_of_unique_max scan ws [] lf hscan hlen b hb hpos huniq

/-- Witness for C12: CRANE, SEEDY, ABOUT with no KnownPresent letter and candidates
scanned in the reverse of the insertion order; SEEDY repeats a letter, so the choice is
made among CRANE and ABOUT, and CRANE, with the one greatest score, is returned. -/
theorem empty_known_present_selects_tier3_witness :
    tier3 [CRANE, SEEDY, ABOUT] = [CRANE, ABOUT] ∧
      findBestCandidateIn List.reverse [CRANE, SEEDY, ABOUT] []
        (letterFrequencies [CRANE, SEEDY, ABOUT]) = CRANE ∧
      ∃ cands : List Word,
        cands.Perm (if tier3 [CRANE, SEEDY, ABOUT] ≠ [] then tier3 [CRANE, SEEDY, ABOUT]
          else [CRANE, SEEDY, ABOUT]) ∧
          findBestCandidateIn List.reverse [CRANE, SEEDY, ABOUT] []
              (letterFrequencies [CRANE, SEEDY, ABOUT])
            = bestCandidate cands (wordRankings cands (letterFrequencies [CRANE, SEEDY, ABOUT])) :=
  ⟨by decide,
    (empty_known_present_selects_tier3 List.reverse [CRANE, SEEDY, ABOUT]
      (letterFrequencies [CRANE, SEEDY, ABOUT]) (fun l => List.reverse_perm l) (by decide)
      (by decide)).2.2 CRANE (by decide) (by decide) (by decide),
    (empty_known_present_selects_tier3 List.reverse [CRANE, SEEDY, ABOUT]
      (letterFrequencies [CRANE, SEEDY, ABOUT]) (fun l => List.reverse_perm l) (by decide)
      (by decide)).2.1⟩

/-- C19, as the code has it. For every two enumeration orders of a working set of
five-letter words, every two orders in which the candidates are scanned, every
KnownPresent and every frequency table: when one member of the chosen tier has a
positive score strictly greater than the score of every other member,
`findBestCandidate` returns that word in both cases; and whenever some member has a
positive score, the word returned is the one that the scan of the candidates meets
first among the members with the greatest score. -/
theorem unique_maximum_is_order_independent (scan1 scan2 : List Word → List Word)
    (ws1 ws2 : List Word) (ys : List Char) (lf : IntMap Char)
    (hscan1 : ∀ l, (scan1 l).Perm l) (hscan2 : ∀ l, (scan2 l).Perm l)
    (hperm : ws1.Perm ws2) (hlen : ∀ w ∈ ws1, w.length = 5) :
    (∀ b ∈ chosenTier ws1 ys,
        0 < mapGet (wordRankings (chosenTier ws1 ys) lf) b →
        (∀ w ∈ chosenTier ws1 ys, w ≠ b →
          mapGet (wordRankings (chosenTier ws1 ys) lf) w
            < mapGet (wordRankings (chosenTier ws1 ys) lf) b) →
        findBestCandidateIn scan1 ws1 ys lf = b ∧ findBestCandidateIn scan2 ws2 ys lf = b) ∧
      ((∃ w ∈ chosenTier ws1 ys, 0 < mapGet (wordRankings (chosenTier ws1 ys) lf) w) →
        ∃ cands pre post : List Word,
          (∀ w, w ∈ cands ↔ w ∈ chosenTier ws1 ys) ∧
            scan1 cands = pre ++ findBestCandidateIn scan1 ws1 ys lf :: post ∧
            (∀ w ∈ pre, mapGet (wordRankings (chosenTier ws1 ys) lf) w
              < mapGet (wordRankings (chosenTier ws1 ys) lf)
                  (findBestCandidateIn scan1 ws1 ys lf)) ∧
            (∀ w ∈ post, mapGet (wordRankings (chosenTier ws1 ys) lf) w
              ≤ mapGet (wordRankings (chosenTier ws1 ys) lf)
                  (findBestCandidateIn scan1 ws1 ys lf))) := by
  constructor
  · intro b hb hpos huniq
    have hmem : ∀ w, w ∈ ws1 ↔ w ∈ ws2 := fun w => hperm.mem_iff
    have hc := mem_chosenTier_congr ws1 ws2 ys hmem
    have hr := wordRankings_get_congr (chosenTier ws1 ys) (chosenTier ws2 ys) lf hc
    refine ⟨findBestCandidateIn_of_unique_max scan1 ws1 ys lf hscan1 hlen b hb hpos huniq, ?_⟩
    apply findBestCandidateIn_of_unique_max scan2 ws2 ys lf hscan2
      (fun w hw => hlen w ((hmem w).mpr hw)) b ((hc b).mp hb)
    · rw [← hr]; exact hpos
    · intro w hw hne
      rw [← hr, ← hr]
      exact huniq w ((hc w).mpr hw) hne
  · rintro ⟨w0, hw0, hpos0⟩
    obtain ⟨cands, heq, hmem⟩ := findBestCandidateIn_tier scan1 ws1 ys lf hlen
    have hr := wordRankings_get_congr cands (chosenTier ws1 ys) lf hmem
    obtain ⟨pre, post, h1, h2, h3⟩ := bestCandidate_first_max (scan1 cands)
      (wordRankings cands lf)
      ⟨w0, (hscan1 cands).mem_iff.mpr ((hmem w0).mpr hw0), by rw [hr]; exact hpos0⟩
    rw [← heq] at h1 h2 h3
    refine ⟨cands, pre, post, hmem, h1, ?_, ?_⟩
    · intro w hw
      rw [← hr, ← hr]
      exact h2 w hw
    · intro w hw
      rw [← hr, ← hr]
      exact h3 w hw

/-- Witness for the amended C19: CRANE, MONEY, ABOUT with KnownPresent A, enumerated in
two orders and scanned in two orders; CRANE alone has the greatest score of the chosen
tier and is returned in both cases. -/
theorem unique_maximum_is_order_independent_witness :
    findBestCandidateIn (fun l => l) [CRANE, MONEY, ABOUT] ['A']
        (letterFrequencies [CRANE, MONEY, ABOUT]) = CRANE ∧
      findBestCandidateIn List.reverse [ABOUT, MONEY, CRANE] ['A']
        (letterFrequencies [CRANE, MONEY, ABOUT]) = CRANE :=
  (unique_maximum_is_order_independent (fun l => l) List.reverse [CRANE, MONEY, ABOUT]
    [ABOUT, MONEY, CRANE] ['A'] (letterFrequencies [CRANE, MONEY, ABOUT])
    (fun l => List.Perm.refl l) (fun l => List.reverse_perm l) (by decide) (by decide)).1
    CRANE (by decide) (by decide) (by decide)

/-- C19 as stated fails: CRATE and TRACE have the same letters, hence the same score
under every table. For the working set CRATE, TRACE the result is CRATE when the
candidates are scanned in the order of insertion and TRACE when they are scanned in the
reverse order; and with the reverse scan the working set enumerated as TRACE, CRATE
gives CRATE. A fixed order on words would give one word in all three cases. -/
theorem tie_follows_scan_order :
    mapGet (wordRankings [CRATE, TRACE] (letterFrequencies [CRATE, TRACE])) CRATE
        = mapGet (wordRankings [CRATE, TRACE] (letterFrequencies [CRATE, TRACE])) TRACE ∧
      findBestCandidateIn (fun l => l) [CRATE, TRACE] [] (letterFrequencies [CRATE, TRACE])
        = CRATE ∧
      findBestCandidateIn List.reverse [CRATE, TRACE] [] (letterFrequencies [CRATE, TRACE])
        = TRACE ∧
      findBestCandidateIn List.reverse [TRACE, CRATE] [] (letterFrequencies [CRATE, TRACE])
        = CRATE ∧
      findBestCandidateIn (fun l => l) [CRATE, TRACE] [] (letterFrequencies [CRATE, TRACE])
        ≠ findBestCandidateIn List.reverse [CRATE, TRACE] [] (letterFrequencies [CRATE, TRACE]) := by
  decide

/-! ## When the working set shrinks -/

theorem contradicts_iff (G : Greens) (Y : List Char) (g : Word) (res : Feedback) (i : Fin 5)
    (w : Word) (hlen : w.length = 5) :
    contradicts G Y g res i w ↔ survives G Y g res i w = false := by
  rw [← Bool.not_eq_true]
  unfold contradicts
  cases hres : res i with
  | GREEN =>
    rw [survives_green G Y g res i w hlen hres]
    simp
  | YELLOW =>
    rw [survives_yellow G Y g res i w hlen hres]
    simp only [reduceCtorEq, false_and, true_and, or_false, false_or, ne_eq, not_and, not_not]
    constructor
    · rintro (h | h) hne
      · exact absurd h hne
      · exact h
    · intro h
      by_cases he : charAt w i = charAt g i
      · exact Or.inl he
      · exact Or.inr (h he)
  | ERROR =>
    rw [survives_error G Y g res i w hres]
    simp
  | GRAY =>
    simp only [reduceCtorEq, false_and, true_and, false_or]
    by_cases hY : charAt g i ∈ Y
    · rw [survives_gray_present G Y g res i w hres hY]
      simp [hY]
    · by_cases hN : G (charAt g i) = none
      · rw [survives_gray_unknown G Y g res i w hlen hres hN hY]
        simp [hY, hN]
      · rw [survives_gray_placed G Y g res i w hres hN hY]
        simp [hY, hN]

theorem survives_of_agrees (G : Greens) (Y : List Char) (g : Word) (res : Feedback)
    (i : Fin 5) (w : Word) (hlen : w.length = 5) (h : agrees G Y g res i w) :
    survives G Y g res i w = true := by
  obtain ⟨h1, h2, h3, h4⟩ := h
  cases hres : res i with
  | GREEN => exact (survives_green G Y g res i w hlen hres).mpr (h1 hres)
  | YELLOW => exact (survives_yellow G Y g res i w hlen hres).mpr (h2 hres)
  | ERROR => exact survives_error G Y g res i w hres
  | GRAY =>
    by_cases hY : charAt g i ∈ Y
    · exact survives_gray_present G Y g res i w hres hY
    · by_cases hN : G (charAt g i) = none
      · exact (survives_gray_unknown G Y g res i w hlen hres hN hY).mpr (h3 hres hY hN)
      · apply (survives_gray_placed G Y g res i w hres hN hY).mpr
        obtain ⟨hmem, hall⟩ := h4 hres hY hN
        obtain ⟨p, hp, hpidx⟩ := exists_index_of_mem w hlen _ hmem
        rw [find_zero_of_mem w _ hmem, ← hpidx, static_cast_int_small p (by omega)]
        exact hall p hp

/-- C16, as the code has it. For every state with a working set of five-letter words,
every guess and every feedback of an accepted round, with KnownPlacements and
KnownPresent taken after the statuses of the guess have been recorded: the working set
after the round is strictly smaller than before when the guessed word is in the
working set or some word of the working set contradicts the status of some index
(Correct, Present, or Absent on a letter that is not in KnownPresent, with or without
a recorded placement); and it is the same as before when the guessed word is not in
the working set and every word of the working set agrees with the status of every
index. -/
theorem working_set_shrinks_when_contradicted (st : State) (g : Word) (res : Feedback)
    (hlen : ∀ w ∈ st.possibleWords, w.length = 5) :
    ((g ∈ st.possibleWords ∨
          ∃ w ∈ st.possibleWords, ∃ i : Fin 5,
            contradicts (recorded st g res).1 (recorded st g res).2 g res i w) →
        (processRound st g res true).possibleWords.length < st.possibleWords.length) ∧
      (g ∉ st.possibleWords →
        (∀ w ∈ st.possibleWords, ∀ i : Fin 5,
          agrees (recorded st g res).1 (recorded st g res).2 g res i w) →
        (processRound st g res true).possibleWords = st.possibleWords) := by
  constructor
  · rintro (hg | ⟨w, hw, i, hi⟩)
    · apply processRound_length_lt st g res g hg
      intro hmem
      exact ((mem_processRound st g res g).mp hmem).2.1 rfl
    · apply processRound_length_lt st g res w hw
      intro hmem
      have hs := ((mem_processRound st g res w).mp hmem).2.2 i
      rw [(contradicts_iff _ _ g res i w (hlen w hw)).mp hi] at hs
      exact absurd hs (by decide)
  · intro hg hall
    rw [processRound_same]
    simp only [setErase]
    rw [List.filter_filter, List.filter_eq_self]
    intro w hw
    have hwg : w ≠ g := fun e => hg (e ▸ hw)
    simp only [Bool.and_eq_true, decide_eq_true_eq, List.all_eq_true]
    exact ⟨hwg, fun i _ => survives_of_agrees _ _ g res i w (hlen w hw) (hall w hw i)⟩

/-- Witness for the amended C16: on the working set SCENT, SEEDY with index 2 recorded
for E, the guess QEQQQ answered all Absent removes SEEDY, whose first E is at index 1,
and the working set goes from two words to one. -/
theorem working_set_shrinks_when_contradicted_witness :
    (∀ w ∈ placedState.possibleWords, w.length = 5) ∧
      placedState.possibleWords = [SCENT, SEEDY] ∧
      (processRound placedState QEQQQ allGray true).possibleWords = [SCENT] ∧
      (processRound placedState QEQQQ allGray true).possibleWords.length
        < placedState.possibleWords.length :=
  ⟨by decide, by decide, by decide,
    (working_set_shrinks_when_contradicted placedState QEQQQ allGray (by decide)).1
      (Or.inr ⟨SEEDY, by decide, 1,
        Or.inr (Or.inr (Or.inr ⟨by decide, by decide, by decide, by decide⟩))⟩)⟩

end Wordle
